import Mathlib

/-!
Verification of the wasmsand host-side SDK core against its specification.

The development shallowly embeds two source modules of the repository:

* `packages/python-sdk/src/codepod/_rpc.py` — the JSON-RPC protocol engine
  (`RpcClient.call`, `RpcClient._handle_callback`, and the callback response
  writers), together with the `Sandbox.destroy` precondition check from
  `packages/python-sdk/src/codepod/sandbox.py`.
* `packages/python-sdk/src/codepod/vfs.py` — the in-memory virtual file
  system (`MemoryFS`), path normalization (`_normalize`), and the generic
  recursive flattening walk (`VirtualFileSystem._walk` / `_to_flat_files`).

Python strings are modelled as `List Char` where the code splits or slices
them (the VFS), and as Lean `String` where they are opaque tokens (the RPC
layer).  Python `bytes` values are modelled as `List Nat`.  Python dicts are
modelled as insertion-ordered association lists whose keys are unique, with
`dict.get` as first-match lookup and item assignment as update-or-append.
A raised Python exception is modelled as an explicit error outcome.
-/

/-! ## JSON values

Wire messages are newline-delimited JSON (`json.dumps` / `json.loads` in
`_rpc.py`).  A decoded JSON value is one of the six shapes below; an object
keeps its fields as an ordered association list, matching the insertion
order of a decoded Python dict. -/

inductive Json where
  | null
  | bool (b : Bool)
  | num (n : Int)
  | str (s : String)
  | arr (elems : List Json)
  | obj (fields : List (String × Json))

/-- Python truthiness of a decoded JSON value, as used by
`if "error" in msg and msg["error"]:` in `RpcClient.call`. -/
def jsonTruthy : Json → Bool
  | .null => false
  | .bool b => b
  | .num n => n != 0
  | .str s => s != ""
  | .arr elems => !elems.isEmpty
  | .obj fields => !fields.isEmpty

mutual

/-- Python `str()` of a decoded JSON value (used by the f-strings building
callback error messages in `_handle_callback`); `repr()` is used inside
containers.  Strings render verbatim under `str()`. -/
def pyRepr : Json → String
  | .null => "None"
  | .bool true => "True"
  | .bool false => "False"
  | .num n => toString n
  | .str s => "\x27" ++ s ++ "\x27"
  | .arr elems => "[" ++ pyReprList elems ++ "]"
  | .obj fields => "\x7b" ++ pyReprFields fields ++ "\x7d"

/-- Renders the elements of a Python list, comma separated. -/
def pyReprList : List Json → String
  | [] => ""
  | [x] => pyRepr x
  | x :: xs => pyRepr x ++ ", " ++ pyReprList xs

/-- Renders the items of a Python dict, comma separated. -/
def pyReprFields : List (String × Json) → String
  | [] => ""
  | [(k, v)] => "\x27" ++ k ++ "\x27: " ++ pyRepr v
  | (k, v) :: fs => "\x27" ++ k ++ "\x27: " ++ pyRepr v ++ ", " ++ pyReprFields fs

end

/-- Python `str()`: identity on strings, `repr`-like elsewhere. -/
def pyStr : Json → String
  | .str s => s
  | j => pyRepr j

/-! ## The RPC protocol engine (`codepod/_rpc.py`) -/

/-- An extension handler registered with `register_extension_handler`.
It receives the four keyword arguments `args`, `stdin`, `env`, `cwd`
(arbitrary decoded JSON, passed through from the callback params) and
either returns a JSON-serializable result or raises an exception whose
`str()` is the given message. -/
abbrev Handler := Json → Json → Json → Json → Except String Json

/-- The mutable state of `RpcClient` that the protocol engine touches:
whether `start()` has run (`_proc is not None`), the next request id
(`_next_id`), and the extension handler registry
(`_extension_handlers`). -/
structure RpcClient where
  started : Bool
  nextId : Nat
  handlers : List (String × Handler)

/-- One line read from the server's stdout: either a decodable JSON
message or a line on which `json.loads` raises. -/
inductive Line where
  | garbage
  | msg (j : Json)

/-- How a `call` terminates, including every `raise` reachable in
`RpcClient.call`. -/
inductive CallOutcome where
  | ok (result : Json)
  | rpcError (code : Json) (message : Json)
  | closedError
  | decodeError
  | otherError
  | notStarted

/-- The Python exception class corresponding to each failing outcome:
`RpcError(...)` for a reported remote error, `RuntimeError("Server closed
connection")` on stream closure, `json.JSONDecodeError` out of
`json.loads` on an undecodable line, `RuntimeError("RPC client not
started")` before `start()`, and assorted uncaught exceptions
(`TypeError`/`AttributeError`/`KeyError`) on malformed response shapes. -/
def raisedClass : CallOutcome → Option String
  | .ok _ => none
  | .rpcError _ _ => some "RpcError"
  | .closedError => some "RuntimeError"
  | .decodeError => some "json.JSONDecodeError"
  | .otherError => some "TypeError/AttributeError/KeyError"
  | .notStarted => some "RuntimeError"

/-- Everything a `call` produces: the lines written to the transport (the
request line followed by any callback responses, in order), the outcome,
and the client state afterwards. -/
structure CallResult where
  written : List Json
  outcome : CallOutcome
  client : RpcClient

/-- The callback-request test in `RpcClient.call`:
`"method" in msg and isinstance(msg.get("id"), str) and
msg["id"].startswith("cb_")`.  Python's `str.startswith` is prefix
comparison of the character sequences. -/
def isCallbackMsg (fields : List (String × Json)) : Bool :=
  (List.lookup "method" fields).isSome &&
    (match List.lookup "id" fields with
      | some (.str s) => List.isPrefixOf "cb_".toList s.toList
      | _ => false)

/-- `RpcClient._send_callback_result`: the success CallbackResponse line. -/
def sendCallbackResult (cbId : Json) (result : Json) : Json :=
  .obj [("jsonrpc", .str "2.0"), ("id", cbId), ("result", result)]

/-- `RpcClient._send_callback_error`: the error CallbackResponse line,
always carrying code `-32603`. -/
def sendCallbackError (cbId : Json) (message : String) : Json :=
  .obj [("jsonrpc", .str "2.0"), ("id", cbId),
    ("error", .obj [("code", .num (-32603)), ("message", .str message)])]

/-- The method test `method == "extension.invoke"` in `_handle_callback`
(`method` is whatever JSON value the message carried). -/
def isInvoke : Json → Bool
  | .str s => s == "extension.invoke"
  | _ => false

/-- `RpcClient._handle_callback`: dispatch one CallbackRequest and return
the lines written back to the transport.  The `try`/`except` around the
dispatch converts any raised exception into an error CallbackResponse via
`_send_callback_error(cb_id, str(e))`; branches that would raise inside
the `try` (non-dict `params`, unhashable handler name) therefore also
produce one error line. -/
def handleCallback (handlers : List (String × Handler))
    (fields : List (String × Json)) : List Json :=
  let cbId := (List.lookup "id" fields).getD .null
  let method := (List.lookup "method" fields).getD .null
  let params := (List.lookup "params" fields).getD (.obj [])
  if isInvoke method then
    match params with
    | .obj pf =>
      let name := (List.lookup "name" pf).getD (.str "")
      match name with
      | .str s =>
        match List.lookup s handlers with
        | none => [sendCallbackError cbId ("No handler for extension: " ++ s)]
        | some handler =>
          let args := (List.lookup "args" pf).getD (.arr [])
          let stdin := (List.lookup "stdin" pf).getD (.str "")
          let env := (List.lookup "env" pf).getD (.obj [])
          let cwd := (List.lookup "cwd" pf).getD (.str "/")
          match handler args stdin env cwd with
          | .ok result => [sendCallbackResult cbId result]
          | .error e => [sendCallbackError cbId e]
      | .arr _ => [sendCallbackError cbId "unhashable type: list"]
      | .obj _ => [sendCallbackError cbId "unhashable type: dict"]
      | other =>
        -- a hashable non-string name is simply absent from the registry
        [sendCallbackError cbId ("No handler for extension: " ++ pyStr other)]
    | _ =>
      -- params.get on a non-dict raises AttributeError, caught by the except
      [sendCallbackError cbId "AttributeError on params.get"]
  else
    [sendCallbackError cbId ("Unknown callback method: " ++ pyStr method)]

/-- Classification of a non-callback line in `RpcClient.call`:
`if "error" in msg and msg["error"]: raise RpcError(...)` else
`return msg.get("result")`. -/
def respond (fields : List (String × Json)) : CallOutcome :=
  match List.lookup "error" fields with
  | some e =>
    if jsonTruthy e then
      match e with
      | .obj ef =>
        match List.lookup "code" ef, List.lookup "message" ef with
        | some code, some message => .rpcError code message
        | _, _ => .otherError
      | _ => .otherError
    else .ok ((List.lookup "result" fields).getD .null)
  | none => .ok ((List.lookup "result" fields).getD .null)

/-- The read loop of `RpcClient.call`: read a line (end of the stream means
the server closed the connection), decode it, service callback requests
inline, and stop at the first ordinary response.  Returns the lines written
while looping and the outcome. -/
def readLoop (handlers : List (String × Handler)) :
    List Line → List Json × CallOutcome
  | [] => ([], .closedError)
  | .garbage :: _ => ([], .decodeError)
  | .msg m :: rest =>
    match m with
    | .obj fields =>
      if isCallbackMsg fields then
        let w := handleCallback handlers fields
        let r := readLoop handlers rest
        (w ++ r.1, r.2)
      else
        ([], respond fields)
    | _ => ([], .otherError)

/-- `RpcClient.call`: allocate the next id, write one request line, then
run the read loop over the incoming lines. -/
def RpcClient.call (c : RpcClient) (method : String)
    (params : Option (List (String × Json))) (input : List Line) : CallResult :=
  if c.started then
    let request : Json := .obj [("jsonrpc", .str "2.0"), ("id", .num c.nextId),
      ("method", .str method), ("params", .obj (params.getD []))]
    let c' := { c with nextId := c.nextId + 1 }
    let r := readLoop c.handlers input
    ⟨request :: r.1, r.2, c'⟩
  else
    ⟨[], .notStarted, c⟩

/-! ## The session facade's destroy precondition (`codepod/sandbox.py`) -/

/-- The protocol-relevant state of a `Sandbox`: its optional session
identifier (`_sandbox_id`, set only by `fork`) and its RPC client. -/
structure Sandbox where
  sandboxId : Option String
  client : RpcClient

/-- How `Sandbox.destroy` terminates: the `RuntimeError` raised on a root
session before any RPC activity, or the result of the issued
`sandbox.destroy` call. -/
inductive DestroyOutcome where
  | programmingError
  | rpc (r : CallResult)

/-- `Sandbox.destroy`: on a session with no assigned identifier, raise at
once (no line written, client untouched); otherwise issue the
`sandbox.destroy` RPC call with the session identifier as parameter.
Returns the outcome, the lines written, and the client state after. -/
def Sandbox.destroy (sb : Sandbox) (input : List Line) :
    DestroyOutcome × List Json × RpcClient :=
  match sb.sandboxId with
  | none => (.programmingError, [], sb.client)
  | some sid =>
    let r := sb.client.call "sandbox.destroy" (some [("sandboxId", .str sid)]) input
    (.rpc r, r.written, r.client)

example :
    (readLoop [] [.msg (.obj [("jsonrpc", .str "2.0"), ("id", .num 1),
      ("result", .str "hi")])]).2 = .ok (.str "hi") := rfl

example :
    handleCallback [] [("id", .str "cb_1"), ("method", .str "extension.invoke"),
      ("params", .obj [("name", .str "upper")])] =
    [sendCallbackError (.str "cb_1") "No handler for extension: upper"] := rfl

/-! ## The virtual file system (`codepod/vfs.py`)

Paths and path fragments are Python strings manipulated by `split`,
`join`, slicing and `startswith`; they are modelled as `List Char`.
File contents are `bytes`, modelled as `List Nat`.  The `MemoryFS` store
`self._files` is an insertion-ordered dict. -/

/-- A Python string viewed as its character sequence. -/
abbrev Str := List Char

/-- A Python `bytes` value viewed as its byte sequence. -/
abbrev Bytes := List Nat

/-- First-match association-list lookup: Python `dict` item access /
`dict.get` (keys of a Python dict are unique, so first match is the
match). -/
def dictGet : List (Str × α) → Str → Option α
  | [], _ => none
  | (k', v) :: rest, k => if k' = k then some v else dictGet rest k

/-- Python `dict` item assignment: update the value in place when the key
is present, append otherwise. -/
def dictInsert : List (Str × α) → Str → α → List (Str × α)
  | [], k, v => [(k, v)]
  | (k', v') :: rest, k, v =>
    if k' = k then (k, v) :: rest else (k', v') :: dictInsert rest k v

/-- The keys of a dict in insertion order (`for fpath in self._files`). -/
def dictKeys (m : List (Str × α)) : List Str := m.map Prod.fst

/-- Python `path.split("/")`: cut at every separator, keeping empty
pieces; the result is never the empty list. -/
def splitSlash : Str → List Str
  | [] => [[]]
  | c :: rest =>
    if c = '/' then [] :: splitSlash rest
    else
      match splitSlash rest with
      | [] => [[c]]
      | p :: ps => (c :: p) :: ps

/-- Python `"/".join(parts)`. -/
def joinSlash : List Str → Str
  | [] => []
  | [p] => p
  | p :: ps => p ++ '/' :: joinSlash ps

/-- The filter in `_normalize`: keep a piece iff it is nonempty and not
`"."`. -/
def goodSeg (p : Str) : Bool := decide (p ≠ [] ∧ p ≠ ['.'])

/-- `_normalize` from `vfs.py`:
`"/".join(p for p in path.split("/") if p and p != ".")`. -/
def normalizePath (path : Str) : Str :=
  joinSlash ((splitSlash path).filter goodSeg)

/-- Exceptions raised by the VFS capability operations. -/
inductive VfsError where
  | fileNotFound (path : Str)
  | isADirectory (path : Str)
  | permissionDenied
  deriving DecidableEq

/-- File or directory kind. -/
inductive FType where
  | file
  | dir
  deriving DecidableEq

/-- The `FileStat` dataclass. -/
structure FileStat where
  type : FType
  size : Nat
  deriving DecidableEq

/-- The `DirEntry` dataclass. -/
structure DirEntry where
  name : Str
  type : FType
  deriving DecidableEq

/-- The state of a `MemoryFS`: the flat file dict `self._files` and the
`writable` flag. -/
structure MemoryFS where
  files : List (Str × Bytes)
  writable : Bool

/-- The `MemoryFS` constructor body: normalize each seeded path and store
it (later duplicates overwrite earlier ones, as with a dict). -/
def MemoryFS.ofSeed (seed : List (Str × Bytes)) (writable : Bool) : MemoryFS :=
  ⟨seed.foldl (fun acc kv => dictInsert acc (normalizePath kv.1) kv.2) [], writable⟩

/-- `MemoryFS._is_dir`: the path is an implicit directory iff it is a
strict `/`-prefix of some stored path. -/
def MemoryFS.is_dir (fs : MemoryFS) (path : Str) : Bool :=
  fs.files.any (fun kv => (path ++ ['/']).isPrefixOf kv.1)

/-- `MemoryFS.read_file`: stored files win over the directory check, which
in turn wins over `FileNotFoundError`. -/
def MemoryFS.read_file (fs : MemoryFS) (path : Str) : Except VfsError Bytes :=
  let path := normalizePath path
  match dictGet fs.files path with
  | some d => .ok d
  | none =>
    if fs.is_dir path then .error (.isADirectory path)
    else .error (.fileNotFound path)

/-- `MemoryFS.write_file`: refuse unless writable, then store under the
normalized path. -/
def MemoryFS.write_file (fs : MemoryFS) (path : Str) (data : Bytes) :
    Except VfsError MemoryFS :=
  if !fs.writable then .error .permissionDenied
  else
    let path := normalizePath path
    .ok { fs with files := dictInsert fs.files path data }

/-- `MemoryFS.exists`. -/
def MemoryFS.exists (fs : MemoryFS) (path : Str) : Bool :=
  let path := normalizePath path
  if path = [] then true
  else if (dictGet fs.files path).isSome then true
  else fs.is_dir path

/-- The `for fpath in self._files` loop of `MemoryFS.readdir`, with `seen`
as an insertion-ordered name→type dict. -/
def readdirLoop (pre : Str) : List Str → List (Str × FType) → List (Str × FType)
  | [], seen => seen
  | fpath :: rest, seen =>
    if pre.isPrefixOf fpath then
      let restPath := fpath.drop pre.length
      if restPath = [] then readdirLoop pre rest seen
      else
        let parts := splitSlash restPath
        let name := parts.headD []
        if (dictGet seen name).isSome then readdirLoop pre rest seen
        else readdirLoop pre rest
          (seen ++ [(name, if parts.length > 1 then .dir else .file)])
    else readdirLoop pre rest seen

/-- `MemoryFS.readdir`: group the stored paths under the queried directory
by the first segment of their remaining suffix; the first stored path in
which a name occurs fixes that name's reported type. -/
def MemoryFS.readdir (fs : MemoryFS) (path : Str) : List DirEntry :=
  let path := normalizePath path
  let pre := if path = [] then ([] : Str) else path ++ ['/']
  (readdirLoop pre (dictKeys fs.files) []).map (fun nt => ⟨nt.1, nt.2⟩)

/-- `MemoryFS.stat`: the root is always a directory; stored files report
their byte length; implicit directories report their immediate child
count. -/
def MemoryFS.stat (fs : MemoryFS) (path : Str) : Except VfsError FileStat :=
  let path := normalizePath path
  if path = [] then .ok ⟨.dir, (fs.readdir []).length⟩
  else
    match dictGet fs.files path with
    | some d => .ok ⟨.file, d.length⟩
    | none =>
      if fs.is_dir path then .ok ⟨.dir, (fs.readdir path).length⟩
      else .error (.fileNotFound path)

/-- `MemoryFS._to_flat_files`: the store itself (a dict copy). -/
def MemoryFS.to_flat_files (fs : MemoryFS) : List (Str × Bytes) := fs.files

/-- The `for entry in entries` loop inside `VirtualFileSystem._walk`:
recurse into directories, read and record files.  The source recursion is
bounded only by the tree's shape, so the embedding charges one unit of
fuel per loop iteration (making the recursion structural on the fuel);
`none` stands for fuel exhaustion or for a raised `read_file` exception
escaping the walk. -/
def walkEntries (rd : Str → List DirEntry) (rf : Str → Except VfsError Bytes) :
    Nat → Str → List DirEntry → List (Str × Bytes) →
    Option (List (Str × Bytes))
  | _, _, [], out => some out
  | 0, _, _ :: _, _ => none
  | fuel + 1, pre, e :: rest, out =>
    let subpath := if pre = [] then e.name else pre ++ '/' :: e.name
    match
      (if e.type = .dir then walkEntries rd rf fuel subpath (rd subpath) out
       else
         match rf subpath with
         | .ok d => some (dictInsert out subpath d)
         | .error _ => none) with
    | some out' => walkEntries rd rf fuel pre rest out'
    | none => none

/-- `VirtualFileSystem._walk` at one directory position: list it and run
the entry loop. -/
def walkFS (rd : Str → List DirEntry) (rf : Str → Except VfsError Bytes)
    (fuel : Nat) (pre : Str) (out : List (Str × Bytes)) :
    Option (List (Str × Bytes)) :=
  walkEntries rd rf fuel pre (rd pre) out

/-- `VirtualFileSystem._to_flat_files`: walk from the root into an empty
dict. -/
def toFlatFilesGeneric (rd : Str → List DirEntry)
    (rf : Str → Except VfsError Bytes) (fuel : Nat) :
    Option (List (Str × Bytes)) :=
  walkFS rd rf fuel [] []

/-- The generic flattening applied to a `MemoryFS`'s own capabilities. -/
def MemoryFS.to_flat_files_generic (fs : MemoryFS) (fuel : Nat) :
    Option (List (Str × Bytes)) :=
  toFlatFilesGeneric fs.readdir fs.read_file fuel

example : normalizePath "./dir/file.txt".toList = "dir/file.txt".toList := by decide

example :
    (MemoryFS.mk [("a.txt".toList, [97]), ("dir/b.txt".toList, [98])] false).readdir [] =
    [⟨"a.txt".toList, .file⟩, ⟨"dir".toList, .dir⟩] := by decide

example :
    (MemoryFS.mk [("a.txt".toList, [97]), ("dir/b.txt".toList, [98])] false).to_flat_files_generic 5 =
    some [("a.txt".toList, [97]), ("dir/b.txt".toList, [98])] := by decide

/-! ## Dictionary lemmas -/

theorem dictGet_insert_self (m : List (Str × α)) (k : Str) (v : α) :
    dictGet (dictInsert m k v) k = some v := by
  induction m with
  | nil => simp [dictInsert, dictGet]
  | cons kv rest ih =>
    obtain ⟨k', v'⟩ := kv
    simp only [dictInsert]
    by_cases h : k' = k
    · rw [if_pos h]
      simp [dictGet]
    · rw [if_neg h]
      simp only [dictGet, ih]
      rw [if_neg h]

theorem dictGet_insert_ne (m : List (Str × α)) (k q : Str) (v : α) (hne : q ≠ k) :
    dictGet (dictInsert m k v) q = dictGet m q := by
  have hkq : k ≠ q := Ne.symm hne
  induction m with
  | nil => simp [dictInsert, dictGet, hkq]
  | cons kv rest ih =>
    obtain ⟨k', v'⟩ := kv
    simp only [dictInsert]
    by_cases h : k' = k
    · rw [if_pos h]
      simp only [dictGet]
      rw [if_neg hkq, if_neg (h ▸ hkq)]
    · rw [if_neg h]
      simp only [dictGet]
      by_cases h2 : k' = q
      · rw [if_pos h2, if_pos h2]
      · rw [if_neg h2, if_neg h2, ih]

theorem dictGet_eq_none_of_not_mem (m : List (Str × α)) (k : Str)
    (h : k ∉ dictKeys m) : dictGet m k = none := by
  induction m with
  | nil => rfl
  | cons kv rest ih =>
    obtain ⟨k', v'⟩ := kv
    have h1 : k' ≠ k := by
      intro he
      exact h (he ▸ List.mem_cons_self k' (dictKeys rest))
    have h2 : k ∉ dictKeys rest := fun hm => h (List.mem_cons_of_mem k' hm)
    simp only [dictGet]
    rw [if_neg h1]
    exact ih h2

theorem mem_keys_of_dictGet (m : List (Str × α)) (k : Str) (v : α)
    (h : dictGet m k = some v) : k ∈ dictKeys m := by
  by_contra hnot
  rw [dictGet_eq_none_of_not_mem m k hnot] at h
  exact Option.noConfusion h

theorem dictGet_of_mem_nodup (m : List (Str × α)) (k : Str) (v : α)
    (hnd : (dictKeys m).Nodup) (h : (k, v) ∈ m) : dictGet m k = some v := by
  induction m with
  | nil => simp at h
  | cons kv rest ih =>
    obtain ⟨k', v'⟩ := kv
    have hnd' := hnd
    rw [show dictKeys ((k', v') :: rest) = k' :: dictKeys rest from rfl,
      List.nodup_cons] at hnd'
    rcases List.mem_cons.mp h with heq | hmem
    · have h1 : k = k' := congrArg Prod.fst heq
      have h2 : v = v' := congrArg Prod.snd heq
      subst h1; subst h2
      simp [dictGet]
    · have hk : k' ≠ k := by
        rintro rfl
        exact hnd'.1 (List.mem_map_of_mem Prod.fst hmem)
      simp only [dictGet]
      rw [if_neg hk]
      exact ih hnd'.2 hmem

theorem mem_of_dictGet (m : List (Str × α)) (k : Str) (v : α)
    (h : dictGet m k = some v) : (k, v) ∈ m := by
  induction m with
  | nil => simp [dictGet] at h
  | cons kv rest ih =>
    obtain ⟨k', v'⟩ := kv
    by_cases hk : k' = k
    · subst hk
      have hv : v' = v := by
        have : some v' = some v := by
          rw [show dictGet ((k', v') :: rest) k' = some v' by simp [dictGet]] at h
          exact h ▸ rfl
        exact Option.some.inj this
      subst hv
      exact List.mem_cons_self _ _
    · refine List.mem_cons_of_mem _ (ih ?_)
      rw [show dictGet ((k', v') :: rest) k = dictGet rest k by
        simp only [dictGet]; rw [if_neg hk]] at h
      exact h

/-! ## Splitting and joining lemmas -/

theorem joinSlash_cons_cons (p q : Str) (ps : List Str) :
    joinSlash (p :: q :: ps) = p ++ '/' :: joinSlash (q :: ps) := rfl

theorem splitSlash_ne_nil (s : Str) : splitSlash s ≠ [] := by
  induction s with
  | nil => simp [splitSlash]
  | cons c rest ih =>
    by_cases h : c = '/'
    · simp [splitSlash, h]
    · simp only [splitSlash, if_neg h]
      cases hs : splitSlash rest with
      | nil => simp
      | cons p ps => simp

theorem splitSlash_slashFree (s : Str) (h : '/' ∉ s) : splitSlash s = [s] := by
  induction s with
  | nil => rfl
  | cons c rest ih =>
    simp only [List.mem_cons] at h
    push_neg at h
    have hc : c ≠ '/' := fun hc => h.1 hc.symm
    simp only [splitSlash, if_neg hc, ih h.2]

theorem splitSlash_append_slash (a b : Str) (h : '/' ∉ a) :
    splitSlash (a ++ '/' :: b) = a :: splitSlash b := by
  induction a with
  | nil => simp [splitSlash]
  | cons c rest ih =>
    simp only [List.mem_cons] at h
    push_neg at h
    have hc : c ≠ '/' := fun hc => h.1 hc.symm
    have hstep : (c :: rest) ++ '/' :: b = c :: (rest ++ '/' :: b) := rfl
    rw [hstep]
    simp only [splitSlash, if_neg hc]
    rw [ih h.2]

theorem slashFree_of_mem_splitSlash (s : Str) (p : Str) (hp : p ∈ splitSlash s) :
    '/' ∉ p := by
  induction s generalizing p with
  | nil =>
    simp only [splitSlash, List.mem_singleton] at hp
    subst hp
    simp
  | cons c rest ih =>
    by_cases hc : c = '/'
    · simp only [splitSlash, if_pos hc, List.mem_cons] at hp
      rcases hp with rfl | hp
      · simp
      · exact ih p hp
    · simp only [splitSlash, if_neg hc] at hp
      cases hs : splitSlash rest with
      | nil => exact absurd hs (splitSlash_ne_nil rest)
      | cons q qs =>
        rw [hs] at hp
        rcases List.mem_cons.mp hp with rfl | hp
        · intro hmem
          rcases List.mem_cons.mp hmem with h1 | h1
          · exact hc h1.symm
          · exact ih q (hs ▸ List.mem_cons_self q qs) h1
        · exact ih p (hs ▸ List.mem_cons_of_mem q hp)

theorem joinSlash_append (ss ts : List Str) (hss : ss ≠ []) (hts : ts ≠ []) :
    joinSlash (ss ++ ts) = joinSlash ss ++ '/' :: joinSlash ts := by
  induction ss with
  | nil => cases hss rfl
  | cons p ps ih =>
    cases ps with
    | nil =>
      cases ts with
      | nil => cases hts rfl
      | cons t ts' => simp [joinSlash]
    | cons p2 ps2 =>
      have hmid : (p2 :: ps2) ++ ts = p2 :: (ps2 ++ ts) := rfl
      calc joinSlash ((p :: p2 :: ps2) ++ ts)
          = p ++ '/' :: joinSlash ((p2 :: ps2) ++ ts) := by
            rw [show (p :: p2 :: ps2) ++ ts = p :: p2 :: (ps2 ++ ts) from rfl]
            exact joinSlash_cons_cons p p2 (ps2 ++ ts)
        _ = p ++ '/' :: (joinSlash (p2 :: ps2) ++ '/' :: joinSlash ts) := by
            rw [ih (by simp)]
        _ = (p ++ '/' :: joinSlash (p2 :: ps2)) ++ '/' :: joinSlash ts := by
            simp
        _ = joinSlash (p :: p2 :: ps2) ++ '/' :: joinSlash ts := by
            rw [joinSlash_cons_cons]

theorem splitSlash_joinSlash (ss : List Str) (h : ∀ p ∈ ss, '/' ∉ p)
    (hne : ss ≠ []) : splitSlash (joinSlash ss) = ss := by
  induction ss with
  | nil => cases hne rfl
  | cons p ps ih =>
    cases ps with
    | nil => exact splitSlash_slashFree p (h p (List.mem_singleton.mpr rfl))
    | cons q qs =>
      have hp : '/' ∉ p := h p (List.mem_cons_self _ _)
      rw [joinSlash_cons_cons, splitSlash_append_slash p _ hp,
        ih (fun x hx => h x (List.mem_cons_of_mem p hx)) (by simp)]

/-! ## Normalization lemmas -/

/-- The normalized segments of a path: what `_normalize` keeps. -/
def normSegs (p : Str) : List Str := (splitSlash p).filter goodSeg

/-- A well-formed segment list: each segment is slash-free, nonempty and
not `"."` — exactly the segment lists `_normalize` can output. -/
def GoodSegs (l : List Str) : Prop :=
  ∀ p ∈ l, '/' ∉ p ∧ p ≠ [] ∧ p ≠ ['.']

theorem goodSeg_eq_true {p : Str} : goodSeg p = true ↔ (p ≠ [] ∧ p ≠ ['.']) := by
  simp [goodSeg]

theorem normalizePath_eq_joinSlash (p : Str) :
    normalizePath p = joinSlash (normSegs p) := rfl

theorem goodSegs_normSegs (p : Str) : GoodSegs (normSegs p) := by
  intro q hq
  have hmem := List.mem_of_mem_filter hq
  have hpass := List.of_mem_filter hq
  exact ⟨slashFree_of_mem_splitSlash p q hmem, (goodSeg_eq_true.mp hpass).1,
    (goodSeg_eq_true.mp hpass).2⟩

theorem normalizePath_canonical (ss : List Str) (h : GoodSegs ss) :
    normalizePath (joinSlash ss) = joinSlash ss := by
  cases hss : ss with
  | nil => rfl
  | cons q qs =>
    rw [normalizePath_eq_joinSlash]
    subst hss
    have hsf : ∀ p ∈ (q :: qs), '/' ∉ p := fun p hp => (h p hp).1
    have hsplit : splitSlash (joinSlash (q :: qs)) = q :: qs :=
      splitSlash_joinSlash _ hsf (by simp)
    have hfilter : (q :: qs).filter goodSeg = q :: qs :=
      List.filter_eq_self.mpr fun p hp =>
        goodSeg_eq_true.mpr ⟨(h p hp).2.1, (h p hp).2.2⟩
    rw [normSegs, hsplit, hfilter]

theorem normalizePath_idem (p : Str) :
    normalizePath (normalizePath p) = normalizePath p := by
  rw [normalizePath_eq_joinSlash p]
  exact normalizePath_canonical (normSegs p) (goodSegs_normSegs p)

theorem normalizePath_cons_slash (p : Str) :
    normalizePath ('/' :: p) = normalizePath p := by
  have : splitSlash ('/' :: p) = [] :: splitSlash p := by
    simp [splitSlash]
  rw [normalizePath, this]
  rw [show ([] :: splitSlash p).filter goodSeg = (splitSlash p).filter goodSeg by
    simp [List.filter, goodSeg]]
  rfl

theorem splitSlash_append_trailing (p : Str) :
    splitSlash (p ++ ['/']) = splitSlash p ++ [[]] := by
  induction p with
  | nil => rfl
  | cons c rest ih =>
    by_cases hc : c = '/'
    · subst hc
      rw [show ('/' :: rest) ++ ['/'] = '/' :: (rest ++ ['/']) from rfl]
      simp only [splitSlash, if_pos rfl]
      rw [ih]
      rfl
    · rw [show (c :: rest) ++ ['/'] = c :: (rest ++ ['/']) from rfl]
      simp only [splitSlash, if_neg hc]
      rw [ih]
      cases hs : splitSlash rest with
      | nil => exact absurd hs (splitSlash_ne_nil rest)
      | cons q qs => rfl

theorem normalizePath_append_slash (p : Str) :
    normalizePath (p ++ ['/']) = normalizePath p := by
  have h1 : (splitSlash p ++ [[]]).filter goodSeg = (splitSlash p).filter goodSeg := by
    rw [List.filter_append]
    simp [List.filter, goodSeg]
  rw [normalizePath, splitSlash_append_trailing, h1]
  rfl

theorem count_dotdot_normSegs (p : Str) :
    (normSegs p).count ['.', '.'] = (splitSlash p).count ['.', '.'] := by
  rw [normSegs]
  exact List.count_filter (by simp [goodSeg])

example : normalizePath "a/../b".toList = "a/../b".toList := by decide

/-! ## Prefix bridge lemmas: string-level slash prefixes vs segment lists -/

theorem joinSlash_ne_nil (ss : List Str) (h : GoodSegs ss) (hne : ss ≠ []) :
    joinSlash ss ≠ [] := by
  cases ss with
  | nil => cases hne rfl
  | cons q qs =>
    have hq : q ≠ [] := (h q (List.mem_cons_self _ _)).2.1
    cases qs with
    | nil => exact hq
    | cons r rs =>
      rw [joinSlash_cons_cons]
      intro hx
      simp at hx

theorem joinSlash_head_ne_slash (ss : List Str) (h : GoodSegs ss) (hne : ss ≠ [])
    (t : Str) : joinSlash ss ≠ '/' :: t := by
  cases ss with
  | nil => cases hne rfl
  | cons q qs =>
    have hq : q ≠ [] := (h q (List.mem_cons_self _ _)).2.1
    have hsf : '/' ∉ q := (h q (List.mem_cons_self _ _)).1
    cases q with
    | nil => cases hq rfl
    | cons c cs =>
      have hc : c ≠ '/' := by
        intro hc
        exact hsf (hc ▸ List.mem_cons_self _ _)
      cases qs with
      | nil =>
        intro hx
        injection hx with h1 _
        exact hc h1
      | cons r rs =>
        rw [joinSlash_cons_cons]
        intro hx
        injection hx with h1 _
        exact hc h1

theorem slashPref_of_segs_append (ss us : List Str) (hss : ss ≠ [])
    (hus : us ≠ []) :
    (joinSlash ss ++ ['/']) <+: joinSlash (ss ++ us) := by
  refine ⟨joinSlash us, ?_⟩
  rw [joinSlash_append ss us hss hus]
  simp

theorem splitSlash_joinSlash_append (ss : List Str) (r : Str)
    (hsf : ∀ p ∈ ss, '/' ∉ p) (hne : ss ≠ []) :
    splitSlash (joinSlash ss ++ '/' :: r) = ss ++ splitSlash r := by
  induction ss with
  | nil => cases hne rfl
  | cons q qs ih =>
    cases qs with
    | nil =>
      exact splitSlash_append_slash q r (hsf q (List.mem_cons_self _ _))
    | cons y ys =>
      rw [joinSlash_cons_cons]
      rw [show (q ++ '/' :: joinSlash (y :: ys)) ++ '/' :: r
          = q ++ '/' :: (joinSlash (y :: ys) ++ '/' :: r) by simp]
      rw [splitSlash_append_slash q _ (hsf q (List.mem_cons_self _ _))]
      rw [ih (fun p hp => hsf p (List.mem_cons_of_mem q hp)) (by simp)]
      rfl

theorem segs_of_slashPref (ss ts : List Str) (hgs : GoodSegs ss)
    (hgt : GoodSegs ts) (hss : ss ≠ []) (hts : ts ≠ [])
    (h : (joinSlash ss ++ ['/']) <+: joinSlash ts) :
    ∃ us, us ≠ [] ∧ ts = ss ++ us := by
  obtain ⟨r, hr⟩ := h
  have hr2 : joinSlash ts = joinSlash ss ++ '/' :: r := by
    rw [← hr]; simp
  have hparse : splitSlash (joinSlash ts) = ts :=
    splitSlash_joinSlash ts (fun p hp => (hgt p hp).1) hts
  rw [hr2, splitSlash_joinSlash_append ss r (fun p hp => (hgs p hp).1) hss]
    at hparse
  exact ⟨splitSlash r, splitSlash_ne_nil r, hparse.symm⟩

theorem normalized_eq_joinSlash (p : Str) (h : normalizePath p = p) :
    p = joinSlash (normSegs p) := by
  conv_lhs => rw [← h]
  exact normalizePath_eq_joinSlash p

theorem normSegs_ne_nil_of_normalized (p : Str) (h : normalizePath p = p)
    (hne : p ≠ []) : normSegs p ≠ [] := by
  intro hx
  apply hne
  rw [normalized_eq_joinSlash p h, hx]
  rfl

theorem splitSlash_of_normalized (p : Str) (h : normalizePath p = p)
    (hne : p ≠ []) : splitSlash p = normSegs p := by
  conv_lhs => rw [normalized_eq_joinSlash p h]
  exact splitSlash_joinSlash _ (fun q hq => (goodSegs_normSegs p q hq).1)
    (normSegs_ne_nil_of_normalized p h hne)

/-! ## Store well-formedness

The `MemoryFS` constructor and `write_file` normalize every path before
storing it, so every reachable store has normalized keys, and a dict's
keys are unique.  A key normalizing to the empty string (the mount root)
is also reachable, so emptiness of keys is tracked separately. -/

/-- Every stored key is a fixed point of `_normalize` and nonempty. -/
def CanonKey (k : Str) : Prop := normalizePath k = k ∧ k ≠ []

/-- All keys canonical, no duplicate keys. -/
def WFStore (S : List (Str × Bytes)) : Prop :=
  (dictKeys S).Nodup ∧ ∀ k ∈ dictKeys S, CanonKey k

/-- The spec's proper-tree condition in the form the code itself uses
(`_is_dir`): no stored path continued by `/` is a prefix of another
stored path. -/
def ProperTree (S : List (Str × Bytes)) : Prop :=
  ∀ p ∈ dictKeys S, ∀ q ∈ dictKeys S, ¬ (p ++ ['/']) <+: q

theorem canonKey_goodSegs (k : Str) (h : CanonKey k) : GoodSegs (splitSlash k) := by
  rw [splitSlash_of_normalized k h.1 h.2]
  exact goodSegs_normSegs k

theorem canonKey_join (k : Str) (h : CanonKey k) : joinSlash (splitSlash k) = k := by
  rw [splitSlash_of_normalized k h.1 h.2]
  exact (normalized_eq_joinSlash k h.1).symm

/-! ## Characterizing `readdir` -/

/-- Left-biased choice, for composing first-match lookups. -/
def oget (a b : Option α) : Option α :=
  match a with
  | some x => some x
  | none => b

theorem oget_none_left (b : Option α) : oget none b = b := rfl

theorem oget_none_right (a : Option α) : oget a none = a := by
  cases a <;> rfl

theorem oget_some (x : α) (b : Option α) : oget (some x) b = some x := rfl

theorem oget_assoc (a b c : Option α) :
    oget (oget a b) c = oget a (oget b c) := by
  cases a <;> cases b <;> rfl

theorem dictGet_append (m₁ m₂ : List (Str × α)) (k : Str) :
    dictGet (m₁ ++ m₂) k = oget (dictGet m₁ k) (dictGet m₂ k) := by
  induction m₁ with
  | nil => rfl
  | cons kv rest ih =>
    obtain ⟨k', v'⟩ := kv
    by_cases h : k' = k
    · simp [dictGet, h, oget]
    · simp only [List.cons_append, dictGet, if_neg h]
      exact ih

/-- What one stored path contributes to a directory listing at prefix
`pre`: nothing if it is not under `pre`, otherwise the first segment of
its remaining suffix together with the type the loop body would assign. -/
def keyChild (pre : Str) (k : Str) : Option (Str × FType) :=
  if pre.isPrefixOf k then
    let restPath := k.drop pre.length
    if restPath = [] then none
    else
      let parts := splitSlash restPath
      some (parts.headD [], if parts.length > 1 then FType.dir else FType.file)
  else none

theorem readdirLoop_cons (pre : Str) (k : Str) (rest : List Str)
    (seen : List (Str × FType)) :
    readdirLoop pre (k :: rest) seen =
      readdirLoop pre rest
        (match keyChild pre k with
          | none => seen
          | some (n, t) =>
            if (dictGet seen n).isSome then seen else seen ++ [(n, t)]) := by
  by_cases hp : pre.isPrefixOf k
  · by_cases hr : k.drop pre.length = []
    · simp [readdirLoop, keyChild, hp, hr]
    · simp only [readdirLoop, keyChild, if_pos hp, if_neg hr]
      exact (apply_ite (readdirLoop pre rest) _ _ _).symm
  · simp [readdirLoop, keyChild, hp]

/-- The type the first stored path naming `n` under `pre` assigns to it. -/
def firstChild (pre : Str) : List Str → Str → Option FType
  | [], _ => none
  | k :: rest, n =>
    match keyChild pre k with
    | some (m, t) => if m = n then some t else firstChild pre rest n
    | none => firstChild pre rest n

theorem readdirLoop_get (pre : Str) (keys : List Str)
    (seen : List (Str × FType)) (n : Str) :
    dictGet (readdirLoop pre keys seen) n =
      oget (dictGet seen n) (firstChild pre keys n) := by
  induction keys generalizing seen with
  | nil => simp [readdirLoop, firstChild, oget_none_right]
  | cons k rest ih =>
    rw [readdirLoop_cons]
    cases hkc : keyChild pre k with
    | none => rw [ih, firstChild, hkc]
    | some mt =>
      obtain ⟨m, t⟩ := mt
      dsimp only
      rw [firstChild, hkc]
      dsimp only
      by_cases hs : (dictGet seen m).isSome
      · rw [if_pos hs, ih]
        by_cases hmn : m = n
        · subst hmn
          obtain ⟨x, hx⟩ := Option.isSome_iff_exists.mp hs
          rw [hx, oget_some, oget_some]
        · rw [if_neg hmn]
      · rw [if_neg hs, ih, dictGet_append]
        have hget : dictGet [(m, t)] n = if m = n then some t else none := by
          by_cases hmn : m = n
          · simp [dictGet, hmn]
          · simp [dictGet, hmn]
        rw [hget, oget_assoc]
        by_cases hmn : m = n
        · subst hmn
          rw [Option.not_isSome_iff_eq_none.mp hs, oget_none_left, oget_none_left]
          simp [oget]
        · simp [if_neg hmn, oget_none_left]

theorem readdirLoop_nodup (pre : Str) (keys : List Str)
    (seen : List (Str × FType)) (h : (seen.map Prod.fst).Nodup) :
    ((readdirLoop pre keys seen).map Prod.fst).Nodup := by
  induction keys generalizing seen with
  | nil => exact h
  | cons k rest ih =>
    rw [readdirLoop_cons]
    cases hkc : keyChild pre k with
    | none => exact ih seen h
    | some mt =>
      obtain ⟨m, t⟩ := mt
      dsimp only
      by_cases hs : (dictGet seen m).isSome
      · rw [if_pos hs]
        exact ih seen h
      · rw [if_neg hs]
        refine ih _ ?_
        rw [List.map_append, List.map_singleton]
        refine List.Nodup.append h (List.nodup_singleton m) ?_
        intro a ha hb
        rw [List.mem_singleton] at hb
        subst hb
        obtain ⟨⟨k1, v1⟩, hmem, hfst⟩ := List.mem_map.mp ha
        dsimp at hfst
        subst hfst
        have hd := dictGet_of_mem_nodup seen k1 v1 h hmem
        rw [Option.not_isSome_iff_eq_none.mp hs] at hd
        exact Option.noConfusion hd

/-- The prefix string `readdir` computes for the directory at segment
position `ps`. -/
def preOf (ps : List Str) : Str :=
  if ps = [] then [] else joinSlash ps ++ ['/']

theorem joinSlash_eq_nil_iff (ps : List Str) (h : GoodSegs ps) :
    joinSlash ps = [] ↔ ps = [] := by
  constructor
  · intro hx
    by_contra hne
    exact joinSlash_ne_nil ps h hne hx
  · rintro rfl
    rfl

theorem preOf_nil : preOf [] = [] := rfl

theorem preOf_cons (ps : List Str) (h : ps ≠ []) :
    preOf ps = joinSlash ps ++ ['/'] := by
  simp [preOf, h]

theorem keyChild_some (ps : List Str) (k : Str) (hps : GoodSegs ps)
    (hk : CanonKey k) (hpref : ps <+: splitSlash k) (hne : ps ≠ splitSlash k) :
    keyChild (preOf ps) k =
      some (((splitSlash k).drop ps.length).headD [],
        if ((splitSlash k).drop ps.length).length > 1 then FType.dir
        else FType.file) := by
  obtain ⟨us, hus⟩ := hpref
  have hqs : GoodSegs (splitSlash k) := canonKey_goodSegs k hk
  have husne : us ≠ [] := by
    rintro rfl
    exact hne (by simpa using hus)
  have hdrop : (splitSlash k).drop ps.length = us := by
    rw [← hus]
    exact List.drop_left ps us
  have hgus : GoodSegs us := fun p hp =>
    hqs p (by rw [← hus]; exact List.mem_append_right ps hp)
  rw [hdrop]
  by_cases hpsnil : ps = []
  · subst hpsnil
    have hsk : splitSlash k = us := by simpa using hus.symm
    have hpre : List.isPrefixOf (preOf []) k = true := by
      rw [preOf_nil]
      exact List.isPrefixOf_iff_prefix.mpr ( List.nil_prefix)
    rw [keyChild, if_pos hpre, preOf_nil]
    dsimp only
    rw [List.length_nil, List.drop_zero, if_neg hk.2, hsk]
  · have hjusne : joinSlash us ≠ [] := joinSlash_ne_nil us hgus husne
    have hkeq : k = (joinSlash ps ++ ['/']) ++ joinSlash us := by
      rw [← canonKey_join k hk, ← hus, joinSlash_append ps us hpsnil husne]
      simp
    have hpre : List.isPrefixOf (preOf ps) k = true := by
      rw [preOf_cons ps hpsnil]
      exact List.isPrefixOf_iff_prefix.mpr ⟨joinSlash us, hkeq.symm⟩
    rw [keyChild, if_pos hpre, preOf_cons ps hpsnil]
    dsimp only
    rw [show k.drop (joinSlash ps ++ ['/']).length = joinSlash us by
      rw [hkeq]; exact List.drop_left _ _]
    rw [if_neg hjusne,
      splitSlash_joinSlash us (fun p hp => (hgus p hp).1) husne]

theorem keyChild_none (ps : List Str) (k : Str) (hps : GoodSegs ps)
    (hk : CanonKey k) (hnot : ¬(ps <+: splitSlash k) ∨ ps = splitSlash k) :
    keyChild (preOf ps) k = none := by
  have hqs : GoodSegs (splitSlash k) := canonKey_goodSegs k hk
  have hqsne : splitSlash k ≠ [] := splitSlash_ne_nil k
  rcases hnot with hnp | heq
  · have hpsnil : ps ≠ [] := by
      rintro rfl
      exact hnp ( List.nil_prefix)
    have hpre : ¬ List.isPrefixOf (preOf ps) k = true := by
      rw [preOf_cons ps hpsnil, List.isPrefixOf_iff_prefix]
      intro hx
      rw [← canonKey_join k hk] at hx
      obtain ⟨us, husne, hform⟩ :=
        segs_of_slashPref ps (splitSlash k) hps hqs hpsnil hqsne hx
      exact hnp ⟨us, hform.symm⟩
    rw [keyChild, if_neg hpre]
  · subst heq
    have hpre : ¬ List.isPrefixOf (preOf (splitSlash k)) k = true := by
      rw [preOf_cons _ hqsne, List.isPrefixOf_iff_prefix]
      intro hx
      have hlen := List.IsPrefix.length_le hx
      rw [canonKey_join k hk] at hlen
      simp at hlen
    rw [keyChild, if_neg hpre]

/-! ## `firstChild` characterization -/

theorem firstChild_eq_none (pre : Str) (keys : List Str) (n : Str)
    (h : ∀ k ∈ keys, ∀ t, keyChild pre k ≠ some (n, t)) :
    firstChild pre keys n = none := by
  induction keys with
  | nil => rfl
  | cons k rest ih =>
    rw [firstChild]
    cases hkc : keyChild pre k with
    | none => exact ih fun k' hk' => h k' (List.mem_cons_of_mem k hk')
    | some mt =>
      obtain ⟨m, t⟩ := mt
      dsimp only
      have hmn : m ≠ n := by
        intro hx
        subst hx
        exact h k (List.mem_cons_self _ _) t hkc
      rw [if_neg hmn]
      exact ih fun k' hk' => h k' (List.mem_cons_of_mem k hk')

theorem firstChild_eq_some (pre : Str) (keys : List Str) (n : Str) (t0 : FType)
    (hcons : ∀ k ∈ keys, ∀ t, keyChild pre k = some (n, t) → t = t0)
    (hex : ∃ k ∈ keys, ∃ t, keyChild pre k = some (n, t)) :
    firstChild pre keys n = some t0 := by
  induction keys with
  | nil => simp at hex
  | cons k rest ih =>
    rw [firstChild]
    cases hkc : keyChild pre k with
    | none =>
      obtain ⟨k', hk', t', hkc'⟩ := hex
      rcases List.mem_cons.mp hk' with rfl | hmem
      · rw [hkc] at hkc'
        exact Option.noConfusion hkc'
      · exact ih (fun k2 h2 => hcons k2 (List.mem_cons_of_mem k h2))
          ⟨k', hmem, t', hkc'⟩
    | some mt =>
      obtain ⟨m, t⟩ := mt
      dsimp only
      by_cases hmn : m = n
      · subst hmn
        rw [if_pos rfl, hcons k (List.mem_cons_self _ _) t hkc]
      · rw [if_neg hmn]
        obtain ⟨k', hk', t', hkc'⟩ := hex
        rcases List.mem_cons.mp hk' with rfl | hmem
        · rw [hkc] at hkc'
          have : m = n := congrArg Prod.fst (Option.some.inj hkc')
          exact absurd this hmn
        · exact ih (fun k2 h2 => hcons k2 (List.mem_cons_of_mem k h2))
            ⟨k', hmem, t', hkc'⟩

theorem exists_of_firstChild (pre : Str) (keys : List Str) (n : Str) (t : FType)
    (h : firstChild pre keys n = some t) :
    ∃ k ∈ keys, keyChild pre k = some (n, t) := by
  induction keys with
  | nil => exact Option.noConfusion h
  | cons k rest ih =>
    rw [firstChild] at h
    cases hkc : keyChild pre k with
    | none =>
      rw [hkc] at h
      obtain ⟨k', hk', hkc'⟩ := ih h
      exact ⟨k', List.mem_cons_of_mem k hk', hkc'⟩
    | some mt =>
      obtain ⟨m, t'⟩ := mt
      rw [hkc] at h
      dsimp only at h
      by_cases hmn : m = n
      · subst hmn
        rw [if_pos rfl] at h
        exact ⟨k, List.mem_cons_self _ _, by rw [hkc, Option.some.inj h]⟩
      · rw [if_neg hmn] at h
        obtain ⟨k', hk', hkc'⟩ := ih h
        exact ⟨k', List.mem_cons_of_mem k hk', hkc'⟩

/-! ## Assembling the `readdir` characterization -/

theorem exists_dictGet_of_mem_keys (m : List (Str × α)) (k : Str)
    (h : k ∈ dictKeys m) : ∃ v, dictGet m k = some v := by
  induction m with
  | nil => simp [dictKeys] at h
  | cons kv rest ih =>
    obtain ⟨k', v'⟩ := kv
    by_cases hk : k' = k
    · exact ⟨v', by simp [dictGet, hk]⟩
    · have : k ∈ dictKeys rest := by
        rcases List.mem_cons.mp h with h1 | h1
        · exact absurd h1.symm hk
        · exact h1
      obtain ⟨v, hv⟩ := ih this
      exact ⟨v, by simp only [dictGet]; rw [if_neg hk]; exact hv⟩

theorem readdir_eq_loop (fs : MemoryFS) (ps : List Str) (hps : GoodSegs ps) :
    fs.readdir (joinSlash ps) =
      (readdirLoop (preOf ps) (dictKeys fs.files) []).map
        (fun nt => ⟨nt.1, nt.2⟩) := by
  unfold MemoryFS.readdir
  dsimp only
  rw [normalizePath_canonical ps hps]
  have hpre : (if joinSlash ps = [] then ([] : Str) else joinSlash ps ++ ['/'])
      = preOf ps := by
    by_cases h : ps = []
    · subst h
      rfl
    · rw [if_neg (joinSlash_ne_nil ps hps h), preOf_cons ps h]
  rw [hpre]

theorem readdir_mem_iff (fs : MemoryFS) (ps : List Str) (hps : GoodSegs ps)
    (n : Str) (t : FType) :
    (⟨n, t⟩ : DirEntry) ∈ fs.readdir (joinSlash ps) ↔
      firstChild (preOf ps) (dictKeys fs.files) n = some t := by
  rw [readdir_eq_loop fs ps hps]
  constructor
  · intro hmem
    obtain ⟨⟨n', t'⟩, hmem', heq⟩ := List.mem_map.mp hmem
    have hn : n' = n := congrArg DirEntry.name heq
    have ht : t' = t := congrArg DirEntry.type heq
    subst hn; subst ht
    have hnd := readdirLoop_nodup (preOf ps) (dictKeys fs.files) [] (by simp)
    have hget := dictGet_of_mem_nodup _ n' t' hnd hmem'
    rw [readdirLoop_get] at hget
    simpa [dictGet, oget] using hget
  · intro h
    have hget : dictGet (readdirLoop (preOf ps) (dictKeys fs.files) []) n
        = some t := by
      rw [readdirLoop_get]
      simpa [dictGet, oget] using h
    exact List.mem_map.mpr ⟨(n, t), mem_of_dictGet _ n t hget, rfl⟩

theorem keyChild_inv (ps : List Str) (k : Str) (hps : GoodSegs ps)
    (hk : CanonKey k) (n : Str) (t : FType)
    (h : keyChild (preOf ps) k = some (n, t)) :
    ∃ us, us ≠ [] ∧ splitSlash k = ps ++ us ∧ n = us.headD [] ∧
      t = (if us.length > 1 then FType.dir else FType.file) := by
  by_cases hcase : ps <+: splitSlash k ∧ ps ≠ splitSlash k
  · have := keyChild_some ps k hps hk hcase.1 hcase.2
    rw [h] at this
    have hpair := Option.some.inj this
    obtain ⟨us, hus⟩ := hcase.1
    have hdrop : (splitSlash k).drop ps.length = us := by
      rw [← hus]
      exact List.drop_left ps us
    refine ⟨us, ?_, hus.symm, ?_, ?_⟩
    · rintro rfl
      exact hcase.2 (by simpa using hus)
    · rw [← hdrop]
      exact congrArg Prod.fst hpair
    · rw [← hdrop]
      exact congrArg Prod.snd hpair
  · rw [keyChild_none ps k hps hk (by tauto)] at h
    exact Option.noConfusion h

theorem properTree_segs (S : List (Str × Bytes)) (hWF : WFStore S)
    (hPT : ProperTree S) (p q : Str) (hp : p ∈ dictKeys S)
    (hq : q ∈ dictKeys S) (hpref : splitSlash p <+: splitSlash q)
    (hne : splitSlash p ≠ splitSlash q) : False := by
  obtain ⟨us, hus⟩ := hpref
  have husne : us ≠ [] := by
    rintro rfl
    exact hne (by simpa using hus)
  have hcp : CanonKey p := hWF.2 p hp
  have hcq : CanonKey q := hWF.2 q hq
  have hx : (p ++ ['/']) <+: q := by
    rw [← canonKey_join p hcp, ← canonKey_join q hcq, ← hus]
    exact slashPref_of_segs_append (splitSlash p) us (splitSlash_ne_nil p) husne
  exact hPT p hp q hq hx

theorem keyChild_type (S : List (Str × Bytes)) (hWF : WFStore S)
    (hPT : ProperTree S) (ps : List Str) (hps : GoodSegs ps) (n : Str)
    (t : FType) (k : Str) (hk : k ∈ dictKeys S)
    (h : keyChild (preOf ps) k = some (n, t)) :
    t = (if joinSlash (ps ++ [n]) ∈ dictKeys S then FType.file else FType.dir)
      ∧ ('/' ∉ n ∧ n ≠ [] ∧ n ≠ ['.']) ∧ (ps ++ [n]) <+: splitSlash k := by
  have hck : CanonKey k := hWF.2 k hk
  obtain ⟨us, husne, hsegs, hn, ht⟩ := keyChild_inv ps k hps hck n t h
  obtain ⟨a, us', rfl⟩ : ∃ a us', us = a :: us' := by
    cases us with
    | nil => exact absurd rfl husne
    | cons a us' => exact ⟨a, us', rfl⟩
  have hna : n = a := by simpa using hn
  subst hna
  have hgood : '/' ∉ n ∧ n ≠ [] ∧ n ≠ ['.'] :=
    canonKey_goodSegs k hck n
      (by rw [hsegs]; exact List.mem_append_right ps (List.mem_cons_self _ _))
  have hgps1 : GoodSegs (ps ++ [n]) := by
    intro p hp
    rcases List.mem_append.mp hp with h1 | h1
    · exact hps p h1
    · rw [List.mem_singleton.mp h1]
      exact hgood
  have hpref : (ps ++ [n]) <+: splitSlash k := by
    rw [hsegs]
    exact ⟨us', by simp⟩
  refine ⟨?_, hgood, hpref⟩
  by_cases hckmem : joinSlash (ps ++ [n]) ∈ dictKeys S
  · rw [if_pos hckmem]
    have hus' : us' = [] := by
      by_contra hus'
      have hcck : CanonKey (joinSlash (ps ++ [n])) := hWF.2 _ hckmem
      have hsck : splitSlash (joinSlash (ps ++ [n])) = ps ++ [n] :=
        splitSlash_joinSlash _ (fun p hp => (hgps1 p hp).1) (by simp)
      refine properTree_segs S hWF hPT (joinSlash (ps ++ [n])) k hckmem hk ?_ ?_
      · rw [hsck, hsegs]
        exact ⟨us', by simp⟩
      · rw [hsck, hsegs]
        intro hx
        have h3 : [n] = n :: us' := List.append_cancel_left hx
        injection h3 with _ h4
        exact hus' h4.symm
    subst hus'
    rw [ht]
    rfl
  · rw [if_neg hckmem]
    have hus' : us' ≠ [] := by
      rintro rfl
      apply hckmem
      have : splitSlash k = ps ++ [n] := by simpa using hsegs
      rw [← canonKey_join k hck, this] at hk
      exact hk
    rw [ht, if_pos]
    simp only [List.length_cons, gt_iff_lt]
    have : us'.length ≠ 0 := fun hx => hus' (List.length_eq_zero.mp hx)
    omega

theorem contrib_iff (S : List (Str × Bytes)) (hWF : WFStore S) (ps : List Str)
    (hps : GoodSegs ps) (n : Str) (hn : '/' ∉ n ∧ n ≠ [] ∧ n ≠ ['.']) :
    (∃ k ∈ dictKeys S, ∃ t, keyChild (preOf ps) k = some (n, t)) ↔
      (joinSlash (ps ++ [n]) ∈ dictKeys S ∨
        ∃ q ∈ dictKeys S, (joinSlash (ps ++ [n]) ++ ['/']) <+: q) := by
  have hgps1 : GoodSegs (ps ++ [n]) := by
    intro p hp
    rcases List.mem_append.mp hp with h1 | h1
    · exact hps p h1
    · rw [List.mem_singleton.mp h1]
      exact hn
  have hsck : splitSlash (joinSlash (ps ++ [n])) = ps ++ [n] :=
    splitSlash_joinSlash _ (fun p hp => (hgps1 p hp).1) (by simp)
  constructor
  · rintro ⟨k, hk, t, hkc⟩
    have hck : CanonKey k := hWF.2 k hk
    obtain ⟨us, husne, hsegs, hhd, _⟩ := keyChild_inv ps k hps hck n t hkc
    obtain ⟨a, us', rfl⟩ : ∃ a us', us = a :: us' := by
      cases us with
      | nil => exact absurd rfl husne
      | cons a us' => exact ⟨a, us', rfl⟩
    have hna : n = a := by simpa using hhd
    subst hna
    cases us' with
    | nil =>
      left
      have : splitSlash k = ps ++ [n] := by simpa using hsegs
      rw [← canonKey_join k hck, this] at hk
      exact hk
    | cons b us'' =>
      right
      refine ⟨k, hk, ?_⟩
      rw [← canonKey_join k hck, hsegs,
        show ps ++ n :: b :: us'' = (ps ++ [n]) ++ (b :: us'') by simp]
      exact slashPref_of_segs_append (ps ++ [n]) (b :: us'') (by simp) (by simp)
  · rintro (hmem | ⟨q, hq, hpref⟩)
    · refine ⟨joinSlash (ps ++ [n]), hmem, ?_⟩
      have hcck : CanonKey (joinSlash (ps ++ [n])) := hWF.2 _ hmem
      have h1 : ps <+: splitSlash (joinSlash (ps ++ [n])) := by
        rw [hsck]
        exact ⟨[n], rfl⟩
      have h2 : ps ≠ splitSlash (joinSlash (ps ++ [n])) := by
        rw [hsck]
        intro hx
        have := congrArg List.length hx
        simp at this
      refine ⟨(if ([n] : List Str).length > 1 then FType.dir else FType.file), ?_⟩
      rw [keyChild_some ps _ hps hcck h1 h2, hsck, List.drop_left ps [n]]
      rfl
    · have hcq : CanonKey q := hWF.2 q hq
      have hpref' : (joinSlash (ps ++ [n]) ++ ['/']) <+: joinSlash (splitSlash q) := by
        rw [canonKey_join q hcq]
        exact hpref
      obtain ⟨us, husne, hform⟩ := segs_of_slashPref (ps ++ [n]) (splitSlash q)
        hgps1 (canonKey_goodSegs q hcq) (by simp) (splitSlash_ne_nil q) hpref'
      have h1 : ps <+: splitSlash q := by
        rw [hform]
        exact ⟨n :: us, by simp⟩
      have h2 : ps ≠ splitSlash q := by
        rw [hform]
        intro hx
        have := congrArg List.length hx
        simp at this
      refine ⟨q, hq,
        (if (n :: us).length > 1 then FType.dir else FType.file), ?_⟩
      rw [keyChild_some ps q hps hcq h1 h2, hform,
        show (ps ++ [n]) ++ us = ps ++ (n :: us) by simp,
        List.drop_left ps (n :: us)]
      rfl

theorem readdir_names_nodup (fs : MemoryFS) (ps : List Str)
    (hps : GoodSegs ps) :
    ((fs.readdir (joinSlash ps)).map DirEntry.name).Nodup := by
  rw [readdir_eq_loop fs ps hps, List.map_map]
  exact readdirLoop_nodup (preOf ps) (dictKeys fs.files) [] (by simp)

/-- Full characterization of `readdir` on a proper-tree store: an entry
`(n, t)` is listed at directory position `ps` iff some stored path lies
at or continues past `ps/n`, and `t` is `dir` exactly when some stored
path continues past `ps/n`. -/
theorem readdir_char (fs : MemoryFS) (hWF : WFStore fs.files)
    (hPT : ProperTree fs.files) (ps : List Str) (hps : GoodSegs ps)
    (n : Str) (t : FType) :
    (⟨n, t⟩ : DirEntry) ∈ fs.readdir (joinSlash ps) ↔
      (('/' ∉ n ∧ n ≠ [] ∧ n ≠ ['.']) ∧
        (joinSlash (ps ++ [n]) ∈ dictKeys fs.files ∨
          ∃ q ∈ dictKeys fs.files, (joinSlash (ps ++ [n]) ++ ['/']) <+: q) ∧
        (t = FType.dir ↔
          ∃ q ∈ dictKeys fs.files, (joinSlash (ps ++ [n]) ++ ['/']) <+: q)) := by
  rw [readdir_mem_iff fs ps hps n t]
  constructor
  · intro h
    obtain ⟨k, hk, hkc⟩ := exists_of_firstChild _ _ _ _ h
    obtain ⟨ht, hgood, _⟩ :=
      keyChild_type fs.files hWF hPT ps hps n t k hk hkc
    have hcontrib :
        joinSlash (ps ++ [n]) ∈ dictKeys fs.files ∨
          ∃ q ∈ dictKeys fs.files, (joinSlash (ps ++ [n]) ++ ['/']) <+: q :=
      (contrib_iff fs.files hWF ps hps n hgood).mp ⟨k, hk, t, hkc⟩
    refine ⟨hgood, hcontrib, ?_⟩
    by_cases hck : joinSlash (ps ++ [n]) ∈ dictKeys fs.files
    · rw [if_pos hck] at ht
      subst ht
      constructor
      · intro hx
        exact FType.noConfusion hx
      · rintro ⟨q, hq, hpref⟩
        exact absurd hpref (hPT _ hck q hq)
    · rw [if_neg hck] at ht
      subst ht
      constructor
      · intro _
        rcases hcontrib with h1 | h1
        · exact absurd h1 hck
        · exact h1
      · intro _
        rfl
  · rintro ⟨hgood, hcontrib, htype⟩
    have hex : ∃ k ∈ dictKeys fs.files, ∃ t',
        keyChild (preOf ps) k = some (n, t') :=
      (contrib_iff fs.files hWF ps hps n hgood).mpr hcontrib
    have ht : t = (if joinSlash (ps ++ [n]) ∈ dictKeys fs.files then
        FType.file else FType.dir) := by
      by_cases hck : joinSlash (ps ++ [n]) ∈ dictKeys fs.files
      · rw [if_pos hck]
        cases t with
        | file => rfl
        | dir =>
          obtain ⟨q, hq, hpref⟩ := htype.mp rfl
          exact absurd hpref (hPT _ hck q hq)
      · rw [if_neg hck]
        rcases hcontrib with h1 | h1
        · exact absurd h1 hck
        · exact htype.mpr h1
    rw [ht]
    exact firstChild_eq_some (preOf ps) (dictKeys fs.files) n _
      (fun k hk t' hkc =>
        (keyChild_type fs.files hWF hPT ps hps n t' k hk hkc).1)
      hex

/-! ## Helpers for the flattening walk -/

theorem walkEntries_nil_eq (rd : Str → List DirEntry)
    (rf : Str → Except VfsError Bytes) (fuel : Nat) (pre : Str)
    (out : List (Str × Bytes)) :
    walkEntries rd rf fuel pre [] out = some out := by
  cases fuel <;> rfl

theorem walkSubpath (ps : List Str) (hps : GoodSegs ps) (name : Str) :
    (if joinSlash ps = [] then name else joinSlash ps ++ '/' :: name)
      = joinSlash (ps ++ [name]) := by
  by_cases h : ps = []
  · subst h
    rfl
  · rw [if_neg (joinSlash_ne_nil ps hps h),
      joinSlash_append ps [name] h (by simp)]
    rfl

theorem read_file_stored (fs : MemoryFS) (ss : List Str) (hss : GoodSegs ss)
    (b : Bytes) (hb : dictGet fs.files (joinSlash ss) = some b) :
    fs.read_file (joinSlash ss) = .ok b := by
  unfold MemoryFS.read_file
  dsimp only
  rw [normalizePath_canonical ss hss, hb]

theorem names_eq_of_cover (ps : List Str) (a b : Str) (z : List Str)
    (ha : (ps ++ [a]) <+: z) (hb : (ps ++ [b]) <+: z) : a = b := by
  have h1 : (ps ++ [a]) <+: (ps ++ [b]) ∨ (ps ++ [b]) <+: (ps ++ [a]) :=
    List.prefix_or_prefix_of_prefix ha hb
  have hlen : (ps ++ [a]).length = (ps ++ [b]).length := by simp
  rcases h1 with h1 | h1
  · have := List.IsPrefix.eq_of_length h1 hlen
    simpa using List.append_cancel_left this
  · have := List.IsPrefix.eq_of_length h1 hlen.symm
    simpa using (List.append_cancel_left this).symm

theorem strict_of_cover (ps : List Str) (a : Str) (z : List Str)
    (h : (ps ++ [a]) <+: z) : ps <+: z ∧ ps ≠ z := by
  constructor
  · exact List.IsPrefix.trans ⟨[a], rfl⟩ h
  · intro hx
    subst hx
    have := List.IsPrefix.length_le h
    simp at this

theorem cover_cases (ps : List Str) (n : Str) (q : Str)
    (_hgps1 : GoodSegs (ps ++ [n])) (hq : CanonKey q)
    (h : (ps ++ [n]) <+: splitSlash q) :
    q = joinSlash (ps ++ [n]) ∨ (joinSlash (ps ++ [n]) ++ ['/']) <+: q := by
  obtain ⟨us, hus⟩ := h
  cases us with
  | nil =>
    left
    rw [← canonKey_join q hq, ← hus]
    simp
  | cons c cs =>
    right
    rw [← canonKey_join q hq, ← hus]
    exact slashPref_of_segs_append (ps ++ [n]) (c :: cs) (by simp) (by simp)

/-- The walk-relevant facts `readdir` guarantees about each entry it
returns, given a proper-tree store. -/
def EntryOk (S : List (Str × Bytes)) (ps : List Str) (e : DirEntry) : Prop :=
  ('/' ∉ e.name ∧ e.name ≠ [] ∧ e.name ≠ ['.']) ∧
  (e.type = FType.file → joinSlash (ps ++ [e.name]) ∈ dictKeys S ∧
    ∀ q ∈ dictKeys S, ¬ ((joinSlash (ps ++ [e.name]) ++ ['/']) <+: q)) ∧
  (e.type = FType.dir → joinSlash (ps ++ [e.name]) ∉ dictKeys S ∧
    ∃ q ∈ dictKeys S, (joinSlash (ps ++ [e.name]) ++ ['/']) <+: q)

theorem readdir_entryOk (fs : MemoryFS) (hWF : WFStore fs.files)
    (hPT : ProperTree fs.files) (ps : List Str) (hps : GoodSegs ps) :
    ∀ e ∈ fs.readdir (joinSlash ps), EntryOk fs.files ps e := by
  intro e he
  obtain ⟨n, t⟩ := e
  rw [readdir_char fs hWF hPT ps hps n t] at he
  obtain ⟨hgood, hcontrib, htype⟩ := he
  refine ⟨hgood, ?_, ?_⟩
  · intro hft
    dsimp only at hft
    subst hft
    have hnoext : ∀ q ∈ dictKeys fs.files,
        ¬ ((joinSlash (ps ++ [n]) ++ ['/']) <+: q) := by
      intro q hq hpref
      exact FType.noConfusion (htype.mpr ⟨q, hq, hpref⟩)
    refine ⟨?_, hnoext⟩
    rcases hcontrib with h1 | ⟨q, hq, hpref⟩
    · exact h1
    · exact absurd hpref (hnoext q hq)
  · intro hdt
    dsimp only at hdt
    subst hdt
    have hext := htype.mp rfl
    refine ⟨?_, hext⟩
    intro hck
    obtain ⟨q, hq, hpref⟩ := hext
    exact hPT _ hck q hq hpref

theorem readdir_covers (fs : MemoryFS) (hWF : WFStore fs.files)
    (hPT : ProperTree fs.files) (ps : List Str) (hps : GoodSegs ps)
    (q : Str) (hq : q ∈ dictKeys fs.files) (hpref : ps <+: splitSlash q)
    (hne : ps ≠ splitSlash q) :
    ∃ e ∈ fs.readdir (joinSlash ps), (ps ++ [e.name]) <+: splitSlash q := by
  have hcq : CanonKey q := hWF.2 q hq
  have hkc := keyChild_some ps q hps hcq hpref hne
  set n := ((splitSlash q).drop ps.length).headD [] with hn
  set t := (if ((splitSlash q).drop ps.length).length > 1 then FType.dir
    else FType.file) with ht
  obtain ⟨ht0, hgood, hcover⟩ :=
    keyChild_type fs.files hWF hPT ps hps n t q hq hkc
  have hmem : (⟨n, (if joinSlash (ps ++ [n]) ∈ dictKeys fs.files then
      FType.file else FType.dir)⟩ : DirEntry) ∈ fs.readdir (joinSlash ps) := by
    rw [readdir_mem_iff fs ps hps]
    exact firstChild_eq_some (preOf ps) (dictKeys fs.files) n _
      (fun k hk t' hkc' =>
        (keyChild_type fs.files hWF hPT ps hps n t' k hk hkc').1)
      ⟨q, hq, t, hkc⟩
  exact ⟨_, hmem, hcover⟩

theorem walkEntries_mono (rd : Str → List DirEntry)
    (rf : Str → Except VfsError Bytes) :
    ∀ fuel fuel' (pre : Str) (es : List DirEntry) (out r : List (Str × Bytes)),
      fuel ≤ fuel' → walkEntries rd rf fuel pre es out = some r →
      walkEntries rd rf fuel' pre es out = some r := by
  intro fuel
  induction fuel with
  | zero =>
    intro fuel' pre es out r _ h
    cases es with
    | nil =>
      rw [walkEntries_nil_eq] at h
      rw [walkEntries_nil_eq]
      exact h
    | cons e rest => exact Option.noConfusion h
  | succ f ih =>
    intro fuel' pre es out r hle h
    cases es with
    | nil =>
      rw [walkEntries_nil_eq] at h
      rw [walkEntries_nil_eq]
      exact h
    | cons e rest =>
      obtain ⟨f', rfl⟩ : ∃ f', fuel' = f' + 1 := by
        cases fuel' with
        | zero => omega
        | succ f' => exact ⟨f', rfl⟩
      have hle' : f ≤ f' := by omega
      rw [walkEntries] at h ⊢
      cases hstep : (if e.type = FType.dir then
          walkEntries rd rf f (if pre = [] then e.name else pre ++ '/' :: e.name)
            (rd (if pre = [] then e.name else pre ++ '/' :: e.name)) out
        else
          match rf (if pre = [] then e.name else pre ++ '/' :: e.name) with
          | .ok d => some (dictInsert out
              (if pre = [] then e.name else pre ++ '/' :: e.name) d)
          | .error _ => none) with
      | none =>
        rw [hstep] at h
        exact Option.noConfusion h
      | some out1 =>
        rw [hstep] at h
        dsimp only at h
        have hstep' : (if e.type = FType.dir then
            walkEntries rd rf f' (if pre = [] then e.name else pre ++ '/' :: e.name)
              (rd (if pre = [] then e.name else pre ++ '/' :: e.name)) out
          else
            match rf (if pre = [] then e.name else pre ++ '/' :: e.name) with
            | .ok d => some (dictInsert out
                (if pre = [] then e.name else pre ++ '/' :: e.name) d)
            | .error _ => none) = some out1 := by
          by_cases hd : e.type = FType.dir
          · rw [if_pos hd] at hstep ⊢
            exact ih f' _ _ out out1 hle' hstep
          · rw [if_neg hd] at hstep ⊢
            exact hstep
        rw [hstep']
        exact ih f' pre rest out1 r hle' h

theorem goodSegs_append_one (ps : List Str) (n : Str) (hps : GoodSegs ps)
    (hn : '/' ∉ n ∧ n ≠ [] ∧ n ≠ ['.']) : GoodSegs (ps ++ [n]) := by
  intro p hp
  rcases List.mem_append.mp hp with h1 | h1
  · exact hps p h1
  · rw [List.mem_singleton.mp h1]
    exact hn

/-- Correctness of the generic walk's entry loop over a proper-tree
store: with enough fuel it succeeds, records exactly the stored bytes of
every key covered by one of the pending entries, and leaves every other
key of the accumulator untouched. -/
theorem walkEntries_main (fs : MemoryFS) (hWF : WFStore fs.files)
    (hPT : ProperTree fs.files) :
    ∀ d ps, GoodSegs ps →
      (∀ k ∈ dictKeys fs.files, ps <+: splitSlash k → ps ≠ splitSlash k →
        (splitSlash k).length ≤ ps.length + d) →
      ∀ es, (∀ e ∈ es, EntryOk fs.files ps e) →
        ((es.map DirEntry.name).Nodup) →
        ∀ out, ∃ n0 out',
          walkEntries fs.readdir fs.read_file n0 (joinSlash ps) es out
            = some out' ∧
          (∀ q, q ∈ dictKeys fs.files →
            (∃ e ∈ es, (ps ++ [e.name]) <+: splitSlash q) →
            dictGet out' q = dictGet fs.files q) ∧
          (∀ q, ¬(q ∈ dictKeys fs.files ∧
              ∃ e ∈ es, (ps ++ [e.name]) <+: splitSlash q) →
            dictGet out' q = dictGet out q) := by
  intro d
  induction d using Nat.strong_induction_on with
  | _ d IH =>
  intro ps hps hdepth es
  induction es with
  | nil =>
    intro _ _ out
    refine ⟨0, out, walkEntries_nil_eq _ _ 0 _ out, ?_, ?_⟩
    · rintro q _ ⟨e, he, _⟩
      simp at he
    · intro q _
      rfl
  | cons e rest ihes =>
    intro hok hnodup out
    have hrest_ok : ∀ e' ∈ rest, EntryOk fs.files ps e' :=
      fun e' h' => hok e' (List.mem_cons_of_mem e h')
    rw [List.map_cons, List.nodup_cons] at hnodup
    have hname_not : e.name ∉ rest.map DirEntry.name := hnodup.1
    have hrest_nodup : (rest.map DirEntry.name).Nodup := hnodup.2
    have hgood := (hok e (List.mem_cons_self e rest)).1
    have hgps1 : GoodSegs (ps ++ [e.name]) :=
      goodSegs_append_one ps e.name hps hgood
    have hsub : (if joinSlash ps = [] then e.name
        else joinSlash ps ++ '/' :: e.name) = joinSlash (ps ++ [e.name]) :=
      walkSubpath ps hps e.name
    have hnotrest : ∀ q, (ps ++ [e.name]) <+: splitSlash q →
        ¬∃ e' ∈ rest, (ps ++ [e'.name]) <+: splitSlash q := by
      rintro q hcovq ⟨e', he', hcov'⟩
      have heq := names_eq_of_cover ps e.name e'.name _ hcovq hcov'
      apply hname_not
      rw [heq]
      exact List.mem_map_of_mem DirEntry.name he'
    have hsckE : splitSlash (joinSlash (ps ++ [e.name])) = ps ++ [e.name] :=
      splitSlash_joinSlash _ (fun p hp => (hgps1 p hp).1) (by simp)
    have hself : (ps ++ [e.name]) <+: splitSlash (joinSlash (ps ++ [e.name])) := by
      rw [hsckE]
    cases hft : e.type with
    | file =>
      obtain ⟨hckmem, hnoext⟩ := (hok e (List.mem_cons_self e rest)).2.1 hft
      obtain ⟨b, hb⟩ := exists_dictGet_of_mem_keys fs.files _ hckmem
      have hrf : fs.read_file (joinSlash (ps ++ [e.name])) = .ok b :=
        read_file_stored fs _ hgps1 b hb
      obtain ⟨n0, out', hrun, hcov, hold⟩ :=
        ihes hrest_ok hrest_nodup (dictInsert out (joinSlash (ps ++ [e.name])) b)
      refine ⟨n0 + 1, out', ?_, ?_, ?_⟩
      · rw [walkEntries, hsub, hft]
        rw [if_neg (fun hx => FType.noConfusion hx), hrf]
        exact hrun
      · rintro q hq ⟨e', he', hcovq⟩
        rcases List.mem_cons.mp he' with heq | hmemr
        · rw [heq] at hcovq
          have hq_can : CanonKey q := hWF.2 q hq
          rcases cover_cases ps e.name q hgps1 hq_can hcovq with heqq | hext
          · subst heqq
            have hnr : ¬(joinSlash (ps ++ [e.name]) ∈ dictKeys fs.files ∧
                ∃ e' ∈ rest, (ps ++ [e'.name])
                  <+: splitSlash (joinSlash (ps ++ [e.name]))) := by
              rintro ⟨_, hx⟩
              exact hnotrest _ hself hx
            rw [hold _ hnr, dictGet_insert_self, hb]
          · exact absurd hext (hnoext q hq)
        · exact hcov q hq ⟨e', hmemr, hcovq⟩
      · intro q hnq
        have h1 : ¬(q ∈ dictKeys fs.files ∧
            ∃ e' ∈ rest, (ps ++ [e'.name]) <+: splitSlash q) := by
          rintro ⟨ha, e', he', hc⟩
          exact hnq ⟨ha, e', List.mem_cons_of_mem e he', hc⟩
        rw [hold q h1]
        have hqck : q ≠ joinSlash (ps ++ [e.name]) := by
          rintro rfl
          exact hnq ⟨hckmem, e, List.mem_cons_self e rest, hself⟩
        exact dictGet_insert_ne out _ q b hqck
    | dir =>
      obtain ⟨hcknot, q0, hq0, hq0pref⟩ :=
        (hok e (List.mem_cons_self e rest)).2.2 hft
      have hq0can : CanonKey q0 := hWF.2 q0 hq0
      obtain ⟨us0, hus0ne, hform0⟩ :=
        segs_of_slashPref (ps ++ [e.name]) (splitSlash q0) hgps1
          (canonKey_goodSegs q0 hq0can) (by simp) (splitSlash_ne_nil q0)
          (by rw [canonKey_join q0 hq0can]; exact hq0pref)
      have hcovq0 : (ps ++ [e.name]) <+: splitSlash q0 := ⟨us0, hform0.symm⟩
      have hd2 : 2 ≤ d := by
        have hp0 := strict_of_cover ps e.name _ hcovq0
        have hlen := hdepth q0 hq0 hp0.1 hp0.2
        rw [hform0] at hlen
        have hus0len : us0.length ≠ 0 :=
          fun hx => hus0ne (List.length_eq_zero.mp hx)
        simp only [List.length_append, List.length_singleton] at hlen
        omega
      have hdepth' : ∀ k ∈ dictKeys fs.files,
          (ps ++ [e.name]) <+: splitSlash k →
          (ps ++ [e.name]) ≠ splitSlash k →
          (splitSlash k).length ≤ (ps ++ [e.name]).length + (d - 1) := by
        intro k hk hpk _
        have hp := strict_of_cover ps e.name _ hpk
        have := hdepth k hk hp.1 hp.2
        simp only [List.length_append, List.length_singleton]
        omega
      obtain ⟨n1, out1, hrun1, hcov1, hold1⟩ :=
        IH (d - 1) (by omega) (ps ++ [e.name]) hgps1 hdepth'
          (fs.readdir (joinSlash (ps ++ [e.name])))
          (readdir_entryOk fs hWF hPT _ hgps1)
          (readdir_names_nodup fs _ hgps1) out
      obtain ⟨n2, out', hrun2, hcov2, hold2⟩ := ihes hrest_ok hrest_nodup out1
      refine ⟨max n1 n2 + 1, out', ?_, ?_, ?_⟩
      · rw [walkEntries, hsub, hft]
        rw [if_pos rfl]
        rw [walkEntries_mono _ _ n1 (max n1 n2) _ _ out out1
          (Nat.le_max_left n1 n2) hrun1]
        exact walkEntries_mono _ _ n2 (max n1 n2) _ rest out1 out'
          (Nat.le_max_right n1 n2) hrun2
      · rintro q hq ⟨e', he', hcovq⟩
        rcases List.mem_cons.mp he' with heq | hmemr
        · rw [heq] at hcovq
          have hq_can : CanonKey q := hWF.2 q hq
          rcases cover_cases ps e.name q hgps1 hq_can hcovq with heqq | hext
          · rw [heqq] at hq
            exact absurd hq hcknot
          · obtain ⟨us, husne, hform⟩ :=
              segs_of_slashPref (ps ++ [e.name]) (splitSlash q) hgps1
                (canonKey_goodSegs q hq_can) (by simp) (splitSlash_ne_nil q)
                (by rw [canonKey_join q hq_can]; exact hext)
            have hstrict1 : (ps ++ [e.name]) <+: splitSlash q := ⟨us, hform.symm⟩
            have hstrict2 : (ps ++ [e.name]) ≠ splitSlash q := by
              rw [hform]
              intro hx
              have := congrArg List.length hx
              simp only [List.length_append] at this
              have : us.length = 0 := by omega
              exact husne (List.length_eq_zero.mp this)
            obtain ⟨e'', he'', hcov''⟩ :=
              readdir_covers fs hWF hPT (ps ++ [e.name]) hgps1 q hq
                hstrict1 hstrict2
            have h1 : dictGet out1 q = dictGet fs.files q :=
              hcov1 q hq ⟨e'', he'', hcov''⟩
            have h2 : dictGet out' q = dictGet out1 q := by
              refine hold2 q ?_
              rintro ⟨_, e3, he3, hcov3⟩
              exact hnotrest q hcovq ⟨e3, he3, hcov3⟩
            rw [h2, h1]
        · exact hcov2 q hq ⟨e', hmemr, hcovq⟩
      · intro q hnq
        have h2 : dictGet out' q = dictGet out1 q := by
          refine hold2 q ?_
          rintro ⟨ha, e3, he3, hc3⟩
          exact hnq ⟨ha, e3, List.mem_cons_of_mem e he3, hc3⟩
        have h1 : dictGet out1 q = dictGet out q := by
          refine hold1 q ?_
          rintro ⟨ha, e3, _, hc3⟩
          exact hnq ⟨ha, e, List.mem_cons_self e rest,
            (strict_of_cover (ps ++ [e.name]) e3.name _ hc3).1⟩
        rw [h2, h1]

theorem goodSegs_nil : GoodSegs [] := fun p hp => absurd hp (List.not_mem_nil p)

/-- With enough fuel, the generic recursive flattening of a proper-tree
in-memory store computes a dict with exactly the store's lookups. -/
theorem to_flat_files_generic_spec (fs : MemoryFS) (hWF : WFStore fs.files)
    (hPT : ProperTree fs.files) :
    ∃ fuel0, ∀ fuel, fuel0 ≤ fuel → ∃ out,
      fs.to_flat_files_generic fuel = some out ∧
      ∀ q, dictGet out q = dictGet fs.files q := by
  set d := ((dictKeys fs.files).map (fun k => (splitSlash k).length)).sum with hd
  have hdepth : ∀ k ∈ dictKeys fs.files, ([] : List Str) <+: splitSlash k →
      ([] : List Str) ≠ splitSlash k →
      (splitSlash k).length ≤ ([] : List Str).length + d := by
    intro k hk _ _
    have : (splitSlash k).length ∈
        (dictKeys fs.files).map (fun k => (splitSlash k).length) :=
      List.mem_map_of_mem _ hk
    simpa using List.single_le_sum (fun x _ => Nat.zero_le x) _ this
  obtain ⟨n0, out', hrun, hcov, hold⟩ :=
    walkEntries_main fs hWF hPT d [] goodSegs_nil hdepth
      (fs.readdir (joinSlash [])) (readdir_entryOk fs hWF hPT [] goodSegs_nil)
      (readdir_names_nodup fs [] goodSegs_nil) []
  refine ⟨n0, fun fuel hfuel => ⟨out', ?_, ?_⟩⟩
  · show walkEntries fs.readdir fs.read_file fuel [] (fs.readdir []) []
      = some out'
    exact walkEntries_mono _ _ n0 fuel _ _ _ _ hfuel hrun
  · intro q
    by_cases hq : q ∈ dictKeys fs.files
    · have hne : ([] : List Str) ≠ splitSlash q :=
        fun hx => splitSlash_ne_nil q hx.symm
      obtain ⟨e, he, hcove⟩ := readdir_covers fs hWF hPT [] goodSegs_nil q hq
        ( List.nil_prefix) hne
      exact hcov q hq ⟨e, he, by simpa using hcove⟩
    · rw [hold q (fun hx => hq hx.1)]
      rw [show dictGet ([] : List (Str × Bytes)) q = none from rfl]
      rw [dictGet_eq_none_of_not_mem fs.files q hq]

/-! ## Dispatch and call lemmas -/

/-- A line is a CallbackResponse for the given callback id: one of the two
shapes `_send_callback_result` / `_send_callback_error` produce. -/
def isCallbackResponseFor (cbId : Json) (line : Json) : Prop :=
  (∃ r, line = sendCallbackResult cbId r) ∨
    (∃ msg, line = sendCallbackError cbId msg)

theorem handleCallback_shape (handlers : List (String × Handler))
    (fields : List (String × Json)) :
    ∃ line, handleCallback handlers fields = [line] ∧
      isCallbackResponseFor ((List.lookup "id" fields).getD .null) line := by
  unfold handleCallback
  dsimp only
  repeat' split
  all_goals first
    | exact ⟨_, rfl, .inr ⟨_, rfl⟩⟩
    | exact ⟨_, rfl, .inl ⟨_, rfl⟩⟩

theorem readLoop_callbacks_closed (handlers : List (String × Handler)) :
    ∀ input : List Line,
      (∀ l ∈ input, ∃ fields, l = .msg (.obj fields) ∧
        isCallbackMsg fields = true) →
      (readLoop handlers input).2 = .closedError := by
  intro input
  induction input with
  | nil => intro _; rfl
  | cons l rest ih =>
    intro h
    obtain ⟨fields, rfl, hcb⟩ := h l (List.mem_cons_self l rest)
    have hrest := fun l' hl' => h l' (List.mem_cons_of_mem _ hl')
    rw [readLoop]
    rw [if_pos hcb]
    exact ih hrest

theorem readLoop_garbage_decode (handlers : List (String × Handler)) :
    ∀ (pre rest : List Line),
      (∀ l ∈ pre, ∃ fields, l = .msg (.obj fields) ∧
        isCallbackMsg fields = true) →
      (readLoop handlers (pre ++ .garbage :: rest)).2 = .decodeError := by
  intro pre
  induction pre with
  | nil => intro rest _; rfl
  | cons l pre' ih =>
    intro rest h
    obtain ⟨fields, rfl, hcb⟩ := h l (List.mem_cons_self l pre')
    have hrest := fun l' hl' => h l' (List.mem_cons_of_mem _ hl')
    rw [List.cons_append, readLoop]
    rw [if_pos hcb]
    exact ih rest hrest

/-- The canonical wire Response carrying a result for request id `i`. -/
def responseLine (i : Nat) (r : Json) : Json :=
  .obj [("jsonrpc", .str "2.0"), ("id", .num i), ("result", r)]

/-- The request line `call` writes for id `i`. -/
def requestLine (i : Nat) (method : String)
    (params : Option (List (String × Json))) : Json :=
  .obj [("jsonrpc", .str "2.0"), ("id", .num i), ("method", .str method),
    ("params", .obj (params.getD []))]

theorem isCallbackMsg_responseLine (i : Nat) (r : Json) :
    isCallbackMsg [("jsonrpc", .str "2.0"), ("id", .num i), ("result", r)]
      = false := rfl

theorem call_callback_then_response (c : RpcClient) (hstart : c.started = true)
    (m : String) (p : Option (List (String × Json)))
    (cb : List (String × Json)) (hcb : isCallbackMsg cb = true) (r : Json) :
    c.call m p [.msg (.obj cb), .msg (responseLine c.nextId r)] =
      ⟨requestLine c.nextId m p :: handleCallback c.handlers cb, .ok r,
        ⟨c.started, c.nextId + 1, c.handlers⟩⟩ := by
  have hloop : readLoop c.handlers
      [.msg (.obj cb), .msg (responseLine c.nextId r)]
      = (handleCallback c.handlers cb, .ok r) := by
    show (if isCallbackMsg cb then
        (handleCallback c.handlers cb ++
          (readLoop c.handlers [.msg (responseLine c.nextId r)]).1,
          (readLoop c.handlers [.msg (responseLine c.nextId r)]).2)
      else ([], respond cb)) = _
    rw [if_pos hcb]
    have h2 : readLoop c.handlers [.msg (responseLine c.nextId r)]
        = ([], .ok r) := rfl
    rw [h2]
    simp
  unfold RpcClient.call
  rw [if_pos hstart]
  dsimp only
  rw [hloop]
  rfl

theorem hc_no_handler (handlers : List (String × Handler))
    (fields : List (String × Json)) (cbId : Json) (pf : List (String × Json))
    (n : String)
    (hid : List.lookup "id" fields = some cbId)
    (hmethod : List.lookup "method" fields = some (.str "extension.invoke"))
    (hparams : List.lookup "params" fields = some (.obj pf))
    (hname : List.lookup "name" pf = some (.str n))
    (hh : List.lookup n handlers = none) :
    handleCallback handlers fields =
      [sendCallbackError cbId ("No handler for extension: " ++ n)] := by
  simp [handleCallback, isInvoke, hid, hmethod, hparams, hname, hh]

theorem hc_handler_error (handlers : List (String × Handler))
    (fields : List (String × Json)) (cbId : Json) (pf : List (String × Json))
    (n : String) (h : Handler) (emsg : String)
    (hid : List.lookup "id" fields = some cbId)
    (hmethod : List.lookup "method" fields = some (.str "extension.invoke"))
    (hparams : List.lookup "params" fields = some (.obj pf))
    (hname : List.lookup "name" pf = some (.str n))
    (hh : List.lookup n handlers = some h)
    (hraise : h ((List.lookup "args" pf).getD (.arr []))
        ((List.lookup "stdin" pf).getD (.str ""))
        ((List.lookup "env" pf).getD (.obj []))
        ((List.lookup "cwd" pf).getD (.str "/")) = .error emsg) :
    handleCallback handlers fields = [sendCallbackError cbId emsg] := by
  simp [handleCallback, isInvoke, hid, hmethod, hparams, hname, hh, hraise]

theorem hc_handler_ok (handlers : List (String × Handler))
    (fields : List (String × Json)) (cbId : Json) (pf : List (String × Json))
    (n : String) (h : Handler) (res : Json)
    (hid : List.lookup "id" fields = some cbId)
    (hmethod : List.lookup "method" fields = some (.str "extension.invoke"))
    (hparams : List.lookup "params" fields = some (.obj pf))
    (hname : List.lookup "name" pf = some (.str n))
    (hh : List.lookup n handlers = some h)
    (hrun : h ((List.lookup "args" pf).getD (.arr []))
        ((List.lookup "stdin" pf).getD (.str ""))
        ((List.lookup "env" pf).getD (.obj []))
        ((List.lookup "cwd" pf).getD (.str "/")) = .ok res) :
    handleCallback handlers fields = [sendCallbackResult cbId res] := by
  simp [handleCallback, isInvoke, hid, hmethod, hparams, hname, hh, hrun]

theorem hc_unknown_method (handlers : List (String × Handler))
    (fields : List (String × Json)) (cbId : Json) (mj : Json)
    (hid : List.lookup "id" fields = some cbId)
    (hmethod : List.lookup "method" fields = some mj)
    (hinv : isInvoke mj = false) :
    handleCallback handlers fields =
      [sendCallbackError cbId ("Unknown callback method: " ++ pyStr mj)] := by
  simp [handleCallback, hid, hmethod, hinv]

/-! ## Claim theorems -/

/-- C1: a `call` whose incoming lines are exactly one CallbackRequest
followed by the matching Response returns that Response's result; the
lines written are exactly the request line followed by one
CallbackResponse for the callback's id; the only engine state change is
the incremented next request id (handlers and started flag unchanged). -/
theorem call_single_callback_roundtrip (c : RpcClient)
    (hstart : c.started = true) (m : String)
    (p : Option (List (String × Json))) (cb : List (String × Json))
    (hcb : isCallbackMsg cb = true) (r : Json) :
    c.call m p [.msg (.obj cb), .msg (responseLine c.nextId r)] =
      ⟨requestLine c.nextId m p :: handleCallback c.handlers cb, .ok r,
        ⟨c.started, c.nextId + 1, c.handlers⟩⟩ ∧
    ∃ line, handleCallback c.handlers cb = [line] ∧
      isCallbackResponseFor ((List.lookup "id" cb).getD .null) line :=
  ⟨call_callback_then_response c hstart m p cb hcb r,
    handleCallback_shape c.handlers cb⟩

/-- Witness for C1 at a concrete client, callback request and response. -/
theorem call_single_callback_roundtrip_witness :
    (RpcClient.mk true 5 []).started = true ∧
    isCallbackMsg [("jsonrpc", Json.str "2.0"), ("id", Json.str "cb_1"),
      ("method", Json.str "extension.invoke"),
      ("params", Json.obj [("name", Json.str "f")])] = true ∧
    ((RpcClient.mk true 5 []).call "run" none
        [.msg (.obj [("jsonrpc", Json.str "2.0"), ("id", Json.str "cb_1"),
          ("method", Json.str "extension.invoke"),
          ("params", Json.obj [("name", Json.str "f")])]),
         .msg (responseLine 5 (.num 42))] =
      ⟨requestLine 5 "run" none ::
          handleCallback [] [("jsonrpc", Json.str "2.0"),
            ("id", Json.str "cb_1"),
            ("method", Json.str "extension.invoke"),
            ("params", Json.obj [("name", Json.str "f")])],
        .ok (.num 42), ⟨true, 6, []⟩⟩ ∧
      ∃ line, handleCallback []
          [("jsonrpc", Json.str "2.0"), ("id", Json.str "cb_1"),
            ("method", Json.str "extension.invoke"),
            ("params", Json.obj [("name", Json.str "f")])] = [line] ∧
        isCallbackResponseFor (Json.str "cb_1") line) :=
  ⟨rfl, rfl,
    call_single_callback_roundtrip (RpcClient.mk true 5 []) rfl "run" none
      [("jsonrpc", Json.str "2.0"), ("id", Json.str "cb_1"),
        ("method", Json.str "extension.invoke"),
        ("params", Json.obj [("name", Json.str "f")])] rfl (.num 42)⟩

/-- C2 as stated is refuted: the code raises two distinct exception types
for the two transport failures — `RuntimeError("Server closed
connection")` on stream closure and `json.JSONDecodeError` on an
undecodable line — not one TransportError type covering both.  Both are
distinct from `RpcError`, and neither case returns a value. -/
theorem call_transport_error_not_one_type :
    ((RpcClient.mk true 1 []).call "run" none []).outcome
      = CallOutcome.closedError ∧
    ((RpcClient.mk true 1 []).call "run" none [.garbage]).outcome
      = CallOutcome.decodeError ∧
    raisedClass CallOutcome.closedError = some "RuntimeError" ∧
    raisedClass CallOutcome.decodeError = some "json.JSONDecodeError" ∧
    raisedClass CallOutcome.closedError ≠ raisedClass CallOutcome.decodeError ∧
    raisedClass CallOutcome.closedError
      ≠ raisedClass (CallOutcome.rpcError (.num 1) (.str "x")) ∧
    raisedClass CallOutcome.decodeError
      ≠ raisedClass (CallOutcome.rpcError (.num 1) (.str "x")) :=
  ⟨rfl, rfl, rfl, rfl, by decide, by decide, by decide⟩

/-- C2 (amended): a call over a stream that closes before any ordinary
response raises `RuntimeError`, and a call that reads an undecodable line
raises `json.JSONDecodeError`; both outcomes are distinct from every
`RpcError` outcome and from returning a value — but they are two distinct
exception types, not one. -/
theorem call_transport_failure_spec (c : RpcClient)
    (hstart : c.started = true) (m : String)
    (p : Option (List (String × Json))) :
    (∀ input : List Line,
      (∀ l ∈ input, ∃ fields, l = .msg (.obj fields) ∧
        isCallbackMsg fields = true) →
      (c.call m p input).outcome = CallOutcome.closedError ∧
      raisedClass (c.call m p input).outcome = some "RuntimeError") ∧
    (∀ (pre rest : List Line),
      (∀ l ∈ pre, ∃ fields, l = .msg (.obj fields) ∧
        isCallbackMsg fields = true) →
      (c.call m p (pre ++ .garbage :: rest)).outcome
        = CallOutcome.decodeError ∧
      raisedClass (c.call m p (pre ++ .garbage :: rest)).outcome
        = some "json.JSONDecodeError") ∧
    (∀ code msg r, CallOutcome.closedError ≠ CallOutcome.rpcError code msg ∧
      CallOutcome.decodeError ≠ CallOutcome.rpcError code msg ∧
      CallOutcome.closedError ≠ CallOutcome.ok r ∧
      CallOutcome.decodeError ≠ CallOutcome.ok r) := by
  have houtcome : ∀ input : List Line,
      (c.call m p input).outcome = (readLoop c.handlers input).2 := by
    intro input
    unfold RpcClient.call
    rw [if_pos hstart]
  refine ⟨?_, ?_, ?_⟩
  · intro input h
    have h1 := readLoop_callbacks_closed c.handlers input h
    rw [houtcome input, h1]
    exact ⟨rfl, rfl⟩
  · intro pre rest h
    have h1 := readLoop_garbage_decode c.handlers pre rest h
    rw [houtcome _, h1]
    exact ⟨rfl, rfl⟩
  · intro code msg r
    exact ⟨fun h => CallOutcome.noConfusion h, fun h => CallOutcome.noConfusion h,
      fun h => CallOutcome.noConfusion h, fun h => CallOutcome.noConfusion h⟩

/-- Witness for C2's amended theorem at a concrete client. -/
theorem call_transport_failure_spec_witness :
    (RpcClient.mk true 3 []).started = true ∧
    (((RpcClient.mk true 3 []).call "run" none []).outcome
        = CallOutcome.closedError ∧
      raisedClass ((RpcClient.mk true 3 []).call "run" none []).outcome
        = some "RuntimeError") :=
  ⟨rfl, (call_transport_failure_spec (RpcClient.mk true 3 []) rfl "run"
    none).1 [] (fun l hl => absurd hl (List.not_mem_nil l))⟩

/-- C3: when the registered handler raises, the dispatch writes exactly
one error CallbackResponse carrying code `-32603` and the exception
message, and the outer call still completes with its own Response's
result. -/
theorem handler_fault_contained (c : RpcClient) (hstart : c.started = true)
    (m : String) (p : Option (List (String × Json)))
    (cb : List (String × Json)) (cbId : Json) (pf : List (String × Json))
    (n : String) (h : Handler) (emsg : String) (r : Json)
    (hcb : isCallbackMsg cb = true)
    (hid : List.lookup "id" cb = some cbId)
    (hmethod : List.lookup "method" cb = some (.str "extension.invoke"))
    (hparams : List.lookup "params" cb = some (.obj pf))
    (hname : List.lookup "name" pf = some (.str n))
    (hh : List.lookup n c.handlers = some h)
    (hraise : h ((List.lookup "args" pf).getD (.arr []))
        ((List.lookup "stdin" pf).getD (.str ""))
        ((List.lookup "env" pf).getD (.obj []))
        ((List.lookup "cwd" pf).getD (.str "/")) = .error emsg) :
    handleCallback c.handlers cb = [Json.obj [("jsonrpc", .str "2.0"),
      ("id", cbId), ("error", .obj [("code", .num (-32603)),
      ("message", .str emsg)])]] ∧
    c.call m p [.msg (.obj cb), .msg (responseLine c.nextId r)] =
      ⟨requestLine c.nextId m p :: handleCallback c.handlers cb, .ok r,
        ⟨c.started, c.nextId + 1, c.handlers⟩⟩ :=
  ⟨hc_handler_error c.handlers cb cbId pf n h emsg hid hmethod hparams
      hname hh hraise,
    call_callback_then_response c hstart m p cb hcb r⟩

/-- Witness for C3: a concrete handler that raises. -/
theorem handler_fault_contained_witness :
    (RpcClient.mk true 2
        [("boom", fun _ _ _ _ => Except.error "division by zero")]).started
      = true ∧
    handleCallback
        [("boom", (fun _ _ _ _ => Except.error "division by zero" : Handler))]
        [("jsonrpc", Json.str "2.0"), ("id", Json.str "cb_9"),
          ("method", Json.str "extension.invoke"),
          ("params", Json.obj [("name", Json.str "boom")])] =
      [Json.obj [("jsonrpc", .str "2.0"), ("id", Json.str "cb_9"),
        ("error", .obj [("code", .num (-32603)),
          ("message", .str "division by zero")])]] := by
  refine ⟨rfl, ?_⟩
  exact (handler_fault_contained
    (RpcClient.mk true 2
      [("boom", fun _ _ _ _ => Except.error "division by zero")])
    rfl "run" none
    [("jsonrpc", Json.str "2.0"), ("id", Json.str "cb_9"),
      ("method", Json.str "extension.invoke"),
      ("params", Json.obj [("name", Json.str "boom")])]
    (Json.str "cb_9") [("name", Json.str "boom")] "boom"
    (fun _ _ _ _ => Except.error "division by zero") "division by zero"
    (.num 0) rfl rfl rfl rfl rfl rfl rfl).1

/-- C4: every dispatch writes exactly one CallbackResponse line, in every
branch; an `extension.invoke` naming an unregistered extension gets an
error response whose message names the missing extension, and an unknown
callback method gets an error response naming the method. -/
theorem dispatch_exactly_one_response (handlers : List (String × Handler))
    (fields : List (String × Json)) :
    (∃ line, handleCallback handlers fields = [line] ∧
      isCallbackResponseFor ((List.lookup "id" fields).getD .null) line) ∧
    (∀ cbId pf n, List.lookup "id" fields = some cbId →
      List.lookup "method" fields = some (.str "extension.invoke") →
      List.lookup "params" fields = some (.obj pf) →
      List.lookup "name" pf = some (.str n) →
      List.lookup n handlers = none →
      handleCallback handlers fields =
        [sendCallbackError cbId ("No handler for extension: " ++ n)]) ∧
    (∀ cbId mj, List.lookup "id" fields = some cbId →
      List.lookup "method" fields = some mj → isInvoke mj = false →
      handleCallback handlers fields =
        [sendCallbackError cbId ("Unknown callback method: " ++ pyStr mj)]) :=
  ⟨handleCallback_shape handlers fields,
    fun cbId pf n hid hm hp hn hh =>
      hc_no_handler handlers fields cbId pf n hid hm hp hn hh,
    fun cbId mj hid hm hinv =>
      hc_unknown_method handlers fields cbId mj hid hm hinv⟩

/-- Witness for C4: dispatch of a request naming an unregistered
extension writes exactly the one error line naming it. -/
theorem dispatch_exactly_one_response_witness :
    handleCallback [] [("id", Json.str "cb_2"),
        ("method", Json.str "extension.invoke"),
        ("params", Json.obj [("name", Json.str "missing")])] =
      [sendCallbackError (Json.str "cb_2")
        ("No handler for extension: " ++ "missing")] :=
  (dispatch_exactly_one_response [] [("id", Json.str "cb_2"),
      ("method", Json.str "extension.invoke"),
      ("params", Json.obj [("name", Json.str "missing")])]).2.1
    (Json.str "cb_2") [("name", Json.str "missing")] "missing"
    rfl rfl rfl rfl rfl

/-- C5: `destroy()` on a session with no assigned session identifier
fails at once with the local precondition error, writing nothing and
leaving the client (including the next request id) untouched; on a forked
session it issues the `sandbox.destroy` RPC call with the session
identifier as parameter. -/
theorem destroy_spec :
    (∀ (sb : Sandbox) (input : List Line), sb.sandboxId = none →
      sb.destroy input = (.programmingError, [], sb.client)) ∧
    (∀ (sb : Sandbox) (sid : String) (input : List Line),
      sb.sandboxId = some sid → sb.client.started = true →
      (sb.destroy input).2.1 =
        Json.obj [("jsonrpc", .str "2.0"), ("id", .num sb.client.nextId),
          ("method", .str "sandbox.destroy"),
          ("params", .obj [("sandboxId", .str sid)])]
        :: (readLoop sb.client.handlers input).1) := by
  constructor
  · intro sb input h
    unfold Sandbox.destroy
    rw [h]
  · intro sb sid input h hstart
    unfold Sandbox.destroy
    rw [h]
    dsimp only
    unfold RpcClient.call
    rw [if_pos hstart]
    rfl

/-- Witness for C5: the root-session branch and the forked branch at
concrete sessions. -/
theorem destroy_spec_witness :
    (Sandbox.mk none (RpcClient.mk true 4 [])).destroy []
      = (.programmingError, [], RpcClient.mk true 4 []) ∧
    ((Sandbox.mk (some "sb_1") (RpcClient.mk true 4 [])).destroy []).2.1
      = Json.obj [("jsonrpc", .str "2.0"), ("id", .num 4),
          ("method", .str "sandbox.destroy"),
          ("params", .obj [("sandboxId", .str "sb_1")])]
        :: (readLoop [] []).1 :=
  ⟨destroy_spec.1 (Sandbox.mk none (RpcClient.mk true 4 [])) [] rfl,
    destroy_spec.2 (Sandbox.mk (some "sb_1") (RpcClient.mk true 4 []))
      "sb_1" [] rfl rfl⟩

/-- C6: on a writable in-memory VFS, `write_file` followed by `read_file`
at the same path returns exactly the written bytes, for every path and
every byte sequence; on a read-only instance `write_file` fails with
`PermissionError` and, the operation producing no new store, the store is
unchanged. -/
theorem write_read_roundtrip_and_readonly :
    (∀ (fs : MemoryFS), fs.writable = true → ∀ (path : Str) (data : Bytes),
      ∃ fs', fs.write_file path data = .ok fs' ∧
        fs'.read_file path = .ok data) ∧
    (∀ (fs : MemoryFS), fs.writable = false → ∀ (path : Str) (data : Bytes),
      fs.write_file path data = .error .permissionDenied) := by
  constructor
  · intro fs hw path data
    refine ⟨⟨dictInsert fs.files (normalizePath path) data, fs.writable⟩,
      ?_, ?_⟩
    · unfold MemoryFS.write_file
      rw [hw]
      rfl
    · unfold MemoryFS.read_file
      dsimp only
      rw [dictGet_insert_self]
  · intro fs hw path data
    unfold MemoryFS.write_file
    rw [hw]
    rfl

/-- Witness for C6 at a concrete store, path and byte sequence (with a
zero-length write on the read-only side). -/
theorem write_read_roundtrip_and_readonly_witness :
    (MemoryFS.mk [] true).writable = true ∧
    (∃ fs', (MemoryFS.mk [] true).write_file "dir/f.bin".toList [0, 255, 7]
        = .ok fs' ∧
      fs'.read_file "dir/f.bin".toList = .ok [0, 255, 7]) ∧
    (MemoryFS.mk [("a".toList, [1])] false).writable = false ∧
    (MemoryFS.mk [("a".toList, [1])] false).write_file "b".toList []
      = .error .permissionDenied :=
  ⟨rfl,
    write_read_roundtrip_and_readonly.1 (MemoryFS.mk [] true) rfl
      "dir/f.bin".toList [0, 255, 7],
    rfl,
    write_read_roundtrip_and_readonly.2 (MemoryFS.mk [("a".toList, [1])] false)
      rfl "b".toList []⟩

/-- C7 as stated is refuted by the store holding one file under the empty
(root) path: its keys are normalized, unique, and no stored path is a
strict prefix of another, yet the generic recursive walk returns the
empty mapping while the store maps the empty path to bytes. -/
theorem flatten_root_key_counterexample :
    (dictKeys (MemoryFS.mk [([], [120])] false).files).Nodup ∧
    (∀ k ∈ dictKeys (MemoryFS.mk [([], [120])] false).files,
      normalizePath k = k) ∧
    ProperTree (MemoryFS.mk [([], [120])] false).files ∧
    (MemoryFS.mk [([], [120])] false).to_flat_files_generic 5 = some [] ∧
    dictGet ([] : List (Str × Bytes)) [] = none ∧
    dictGet (MemoryFS.mk [([], [120])] false).files [] = some [120] :=
  ⟨by decide, by decide, by unfold ProperTree; decide, by decide, rfl,
    by decide⟩

/-- C7 (amended with nonempty stored paths): over a store whose keys are
normalized, nonempty, unique, and form a proper tree, the generic
recursive flattening computes (with enough fuel) exactly the same
path→bytes mapping as the in-memory implementation's direct store; the
in-memory implementation returns its store directly; and both produce the
seeded mapping on the two-file example. -/
theorem flatten_equivalence :
    (∀ fs : MemoryFS, WFStore fs.files → ProperTree fs.files →
      ∃ fuel0, ∀ fuel, fuel0 ≤ fuel → ∃ out,
        fs.to_flat_files_generic fuel = some out ∧
        ∀ q, dictGet out q = dictGet fs.files q) ∧
    (∀ fs : MemoryFS, fs.to_flat_files = fs.files) ∧
    (MemoryFS.mk [("a.txt".toList, [97]), ("dir/b.txt".toList, [98])]
        false).to_flat_files
      = [("a.txt".toList, [97]), ("dir/b.txt".toList, [98])] ∧
    (MemoryFS.mk [("a.txt".toList, [97]), ("dir/b.txt".toList, [98])]
        false).to_flat_files_generic 5
      = some [("a.txt".toList, [97]), ("dir/b.txt".toList, [98])] :=
  ⟨fun fs h1 h2 => to_flat_files_generic_spec fs h1 h2, fun _ => rfl, rfl,
    by decide⟩

/-- Witness for C7's amended theorem at the two-file example store. -/
theorem flatten_equivalence_witness :
    WFStore (MemoryFS.mk [("a.txt".toList, [97]), ("dir/b.txt".toList, [98])]
      false).files ∧
    ProperTree (MemoryFS.mk [("a.txt".toList, [97]),
      ("dir/b.txt".toList, [98])] false).files ∧
    (∃ fuel0, ∀ fuel, fuel0 ≤ fuel → ∃ out,
      (MemoryFS.mk [("a.txt".toList, [97]), ("dir/b.txt".toList, [98])]
        false).to_flat_files_generic fuel = some out ∧
      ∀ q, dictGet out q = dictGet (MemoryFS.mk [("a.txt".toList, [97]),
        ("dir/b.txt".toList, [98])] false).files q) :=
  ⟨by unfold WFStore CanonKey; decide, by unfold ProperTree; decide,
    flatten_equivalence.1 _ (by unfold WFStore CanonKey; decide)
      (by unfold ProperTree; decide)⟩

/-- C8's order-free classification rule is refuted by the collision store
`{"a": ..., "a/b": ...}`: the stored path `a/b` continues past the
segment `a`, yet `readdir("")` classifies `a` as a file (the first stored
path fixes the type), and no dir entry for `a` is listed. -/
theorem readdir_collision_counterexample :
    (MemoryFS.mk [("a".toList, [120]), ("a/b".toList, [121])] false).readdir []
      = [⟨"a".toList, FType.file⟩] ∧
    "a/b".toList ∈
      dictKeys (MemoryFS.mk [("a".toList, [120]),
        ("a/b".toList, [121])] false).files ∧
    ("a".toList ++ ['/']) <+: "a/b".toList ∧
    (∀ k ∈ dictKeys (MemoryFS.mk [("a".toList, [120]),
        ("a/b".toList, [121])] false).files, normalizePath k = k) ∧
    (⟨"a".toList, FType.dir⟩ : DirEntry) ∉
      (MemoryFS.mk [("a".toList, [120]),
        ("a/b".toList, [121])] false).readdir [] :=
  ⟨by decide, by decide, by decide, by decide, by decide⟩

/-- C8 (amended with the proper-tree restriction): on the three-file
example `readdir("")` yields exactly the three expected entries, and in
general — provided no stored path is a strict prefix of another —
`readdir` lists exactly the first segments of the stored-path suffixes
under the queried directory, without duplicates, classifying a name as
`dir` iff some stored path continues past that segment and as `file`
otherwise. -/
theorem readdir_grouping_spec :
    ((MemoryFS.mk [("a.txt".toList, [97]), ("b.txt".toList, [98]),
        ("sub/c.txt".toList, [99])] false).readdir []
      = [⟨"a.txt".toList, FType.file⟩, ⟨"b.txt".toList, FType.file⟩,
          ⟨"sub".toList, FType.dir⟩]) ∧
    (∀ fs : MemoryFS, WFStore fs.files → ProperTree fs.files →
      ∀ ps, GoodSegs ps → ∀ n t,
        ((⟨n, t⟩ : DirEntry) ∈ fs.readdir (joinSlash ps) ↔
          (('/' ∉ n ∧ n ≠ [] ∧ n ≠ ['.']) ∧
            (joinSlash (ps ++ [n]) ∈ dictKeys fs.files ∨
              ∃ q ∈ dictKeys fs.files,
                (joinSlash (ps ++ [n]) ++ ['/']) <+: q) ∧
            (t = FType.dir ↔ ∃ q ∈ dictKeys fs.files,
              (joinSlash (ps ++ [n]) ++ ['/']) <+: q)))) ∧
    (∀ (fs : MemoryFS) ps, GoodSegs ps →
      ((fs.readdir (joinSlash ps)).map DirEntry.name).Nodup) :=
  ⟨by decide, fun fs h1 h2 ps hps n t => readdir_char fs h1 h2 ps hps n t,
    fun fs ps hps => readdir_names_nodup fs ps hps⟩

/-- Witness for C8's amended theorem: the characterization instantiated
at the three-file store, the root directory, and the entry `sub`. -/
theorem readdir_grouping_spec_witness :
    WFStore (MemoryFS.mk [("a.txt".toList, [97]), ("b.txt".toList, [98]),
      ("sub/c.txt".toList, [99])] false).files ∧
    ProperTree (MemoryFS.mk [("a.txt".toList, [97]), ("b.txt".toList, [98]),
      ("sub/c.txt".toList, [99])] false).files ∧
    ((⟨"sub".toList, FType.dir⟩ : DirEntry) ∈
        (MemoryFS.mk [("a.txt".toList, [97]), ("b.txt".toList, [98]),
          ("sub/c.txt".toList, [99])] false).readdir (joinSlash []) ↔
      (('/' ∉ "sub".toList ∧ "sub".toList ≠ [] ∧ "sub".toList ≠ ['.']) ∧
        (joinSlash ([] ++ ["sub".toList]) ∈
            dictKeys (MemoryFS.mk [("a.txt".toList, [97]),
              ("b.txt".toList, [98]), ("sub/c.txt".toList, [99])] false).files ∨
          ∃ q ∈ dictKeys (MemoryFS.mk [("a.txt".toList, [97]),
              ("b.txt".toList, [98]), ("sub/c.txt".toList, [99])] false).files,
            (joinSlash ([] ++ ["sub".toList]) ++ ['/']) <+: q) ∧
        (FType.dir = FType.dir ↔
          ∃ q ∈ dictKeys (MemoryFS.mk [("a.txt".toList, [97]),
              ("b.txt".toList, [98]), ("sub/c.txt".toList, [99])] false).files,
            (joinSlash ([] ++ ["sub".toList]) ++ ['/']) <+: q))) :=
  ⟨by unfold WFStore CanonKey; decide, by unfold ProperTree; decide,
    readdir_grouping_spec.2.1 _ (by unfold WFStore CanonKey; decide)
      (by unfold ProperTree; decide) [] goodSegs_nil "sub".toList FType.dir⟩

/-- C9: `_normalize` is idempotent, strips leading and trailing
separators and `.` segments (`"./dir/file.txt"` normalizes to
`"dir/file.txt"`), and never resolves `..` segments — every `..` piece of
the input survives normalization. -/
theorem normalize_spec :
    (∀ p : Str, normalizePath (normalizePath p) = normalizePath p) ∧
    normalizePath "./dir/file.txt".toList = "dir/file.txt".toList ∧
    (∀ p : Str, normalizePath ('/' :: p) = normalizePath p) ∧
    (∀ p : Str, normalizePath (p ++ ['/']) = normalizePath p) ∧
    (∀ p : Str, (normSegs p).count ['.', '.'] =
      (splitSlash p).count ['.', '.']) ∧
    normalizePath "a/../b".toList = "a/../b".toList :=
  ⟨normalizePath_idem, by decide, normalizePath_cons_slash,
    normalizePath_append_slash, count_dotdot_normSegs, by decide⟩

/-- C10: when a stored path is also a strict prefix of another stored
path (the unresolved file/directory collision), the file interpretation
wins for point lookups: `read_file` returns the stored bytes rather than
raising `IsADirectoryError`, and `stat` reports a file of the stored
byte length. -/
theorem collision_file_wins (fs : MemoryFS) (p : Str) (b : Bytes)
    (hnorm : ∀ k ∈ dictKeys fs.files, normalizePath k = k)
    (hp : dictGet fs.files p = some b)
    (hq : ∃ q ∈ dictKeys fs.files, (p ++ ['/']) <+: q) :
    fs.read_file p = .ok b ∧ fs.stat p = .ok ⟨FType.file, b.length⟩ := by
  obtain ⟨q, hqmem, hqpref⟩ := hq
  have hqne : q ≠ [] := by
    rintro rfl
    have := List.IsPrefix.length_le hqpref
    simp at this
  have hqcan : CanonKey q := ⟨hnorm q hqmem, hqne⟩
  have hpne : p ≠ [] := by
    rintro rfl
    obtain ⟨t, ht⟩ := hqpref
    have ht' : q = '/' :: t := by simpa using ht.symm
    exact joinSlash_head_ne_slash (splitSlash q) (canonKey_goodSegs q hqcan)
      (splitSlash_ne_nil q) t (by rw [canonKey_join q hqcan]; exact ht')
  have hpp : normalizePath p = p :=
    hnorm p (mem_keys_of_dictGet fs.files p b hp)
  constructor
  · unfold MemoryFS.read_file
    dsimp only
    rw [hpp, hp]
  · unfold MemoryFS.stat
    dsimp only
    rw [hpp]
    rw [if_neg hpne]
    rw [hp]

/-- Witness for C10 at the concrete collision store
`{"a": [120], "a/b": [7, 8]}`. -/
theorem collision_file_wins_witness :
    (∀ k ∈ dictKeys (MemoryFS.mk [("a".toList, [120]),
        ("a/b".toList, [7, 8])] false).files, normalizePath k = k) ∧
    dictGet (MemoryFS.mk [("a".toList, [120]),
      ("a/b".toList, [7, 8])] false).files "a".toList = some [120] ∧
    (∃ q ∈ dictKeys (MemoryFS.mk [("a".toList, [120]),
        ("a/b".toList, [7, 8])] false).files,
      ("a".toList ++ ['/']) <+: q) ∧
    ((MemoryFS.mk [("a".toList, [120]), ("a/b".toList, [7, 8])]
        false).read_file "a".toList = .ok [120] ∧
      (MemoryFS.mk [("a".toList, [120]), ("a/b".toList, [7, 8])]
        false).stat "a".toList = .ok ⟨FType.file, 1⟩) :=
  ⟨by decide, by decide, by decide,
    collision_file_wins (MemoryFS.mk [("a".toList, [120]),
        ("a/b".toList, [7, 8])] false) "a".toList [120]
      (by decide) (by decide) (by decide)⟩
